import Mathlib

/-!
Verification of the HazeRemoval image-processing pipeline.

The C++ sources are shallowly embedded:
* `float` is modelled by `ℚ` (exact arithmetic standing in for IEEE single
  precision; decimal literals denote their exact decimal values, and the
  two `std::numeric_limits<float>` constants used by `normalise` are the
  exact IEEE values).
* `coord_int` (`int32_t`) is modelled by `ℤ`; image dimensions, which are
  always non-negative in the program, are modelled by `ℕ`.
* `std::vector` is modelled by `List`; out-of-range vector indexing, which
  never occurs on well-formed images, is modelled by `List.getD`.
-/

namespace HazeRemoval

/-- `util.h`: `clamp(x, min, max) = std::min(std::max(x, min), max)`. -/
def clamp {α : Type} [LinearOrder α] (x lo hi : α) : α := min (max x lo) hi

/-- `util.h`: 2D pixel coordinate, a pair of `coord_int`. -/
structure Coord where
  x : ℤ
  y : ℤ
deriving DecidableEq, Repr

instance : Add Coord := ⟨fun a b => ⟨a.x + b.x, a.y + b.y⟩⟩
instance : Sub Coord := ⟨fun a b => ⟨a.x - b.x, a.y - b.y⟩⟩

theorem Coord.add_def (a b : Coord) : a + b = ⟨a.x + b.x, a.y + b.y⟩ := rfl

theorem Coord.sub_def (a b : Coord) : a - b = ⟨a.x - b.x, a.y - b.y⟩ := rfl

/-! ## Pixel (`pixel.h`) -/

/-- `pixel.h`: RGB colour stored as three floats. -/
structure Pixel where
  r : ℚ
  g : ℚ
  b : ℚ
deriving DecidableEq, Repr

/-- `Pixel()` default-constructs to `(0, 0, 0)`. -/
instance : Inhabited Pixel := ⟨⟨0, 0, 0⟩⟩

/-- `getLuminance() = 0.2126f*r + 0.7152f*g + 0.0722f*b` (the decimal
literals written as exact fractions). -/
def Pixel.getLuminance (p : Pixel) : ℚ :=
  2126 / 10000 * p.r + 7152 / 10000 * p.g + 722 / 10000 * p.b

/-- `getSaturation() = (maxChannel - minChannel) / luminance`, `0` when the
luminance is `0`. -/
def Pixel.getSaturation (p : Pixel) : ℚ :=
  let maxChannel := max (max p.r p.g) p.b
  let minChannel := min (min p.r p.g) p.b
  let value := p.getLuminance
  if value = 0 then 0 else (maxChannel - minChannel) / value

instance : Add Pixel := ⟨fun l r => ⟨l.r + r.r, l.g + r.g, l.b + r.b⟩⟩
instance : Sub Pixel := ⟨fun l r => ⟨l.r - r.r, l.g - r.g, l.b - r.b⟩⟩
instance : HMul Pixel ℚ Pixel := ⟨fun p f => ⟨p.r * f, p.g * f, p.b * f⟩⟩
instance : HDiv Pixel ℚ Pixel := ⟨fun p d => ⟨p.r / d, p.g / d, p.b / d⟩⟩

theorem Pixel.padd_def (l r : Pixel) : l + r = ⟨l.r + r.r, l.g + r.g, l.b + r.b⟩ := rfl

theorem Pixel.psub_def (l r : Pixel) : l - r = ⟨l.r - r.r, l.g - r.g, l.b - r.b⟩ := rfl

theorem Pixel.div_def (p : Pixel) (d : ℚ) : p / d = ⟨p.r / d, p.g / d, p.b / d⟩ := rfl

/-! ## BaseImage (`image.h`) -/

/-- `image.h`: dense 2D pixel buffer. `width`/`height` are `coord_int` in the
source; the program only ever constructs non-negative dimensions, modelled
as `ℕ`. -/
structure BaseImage (α : Type) where
  width : ℕ
  height : ℕ
  data : List α
deriving DecidableEq, Repr

/-- `image.h` line 66: `BaseImage(width, height)` — value-initialised buffer of
`width*height` elements. -/
def BaseImage.mkSized (α : Type) [Inhabited α] (width height : ℕ) : BaseImage α :=
  ⟨width, height, List.replicate (width * height) default⟩

/-- `image.h` line 70: `BaseImage(width, height, const PixelT* data)` —
delegates to `BaseImage(width, height)` (which already fills `m_data` with
`width*height` value-initialised elements) and then runs
`std::copy(data, data + width*height, std::back_inserter(m_data))`, which
APPENDS another `width*height` elements. -/
def BaseImage.fromData {α : Type} [Inhabited α] (width height : ℕ) (src : List α) :
    BaseImage α :=
  let base := BaseImage.mkSized α width height
  { base with data := base.data ++ src.take (width * height) }

/-- `image.h` line 77: `BaseImage(width, height, vector&& data)` — moves the
vector in (after `assert(width*height <= data.size())`). -/
def BaseImage.fromVec {α : Type} (width height : ℕ) (data : List α) : BaseImage α :=
  ⟨width, height, data⟩

/-- `image.h` `getIndex`: coordinate clamped to the image borders, then
row-major index. -/
def BaseImage.getIndex {α : Type} (img : BaseImage α) (c : Coord) : ℕ :=
  let cx := clamp c.x 0 ((img.width : ℤ) - 1)
  let cy := clamp c.y 0 ((img.height : ℤ) - 1)
  (cy * img.width + cx).toNat

/-- `image.h` `operator[]`: bounds-clamped pixel access. -/
def BaseImage.get {α : Type} [Inhabited α] (img : BaseImage α) (c : Coord) : α :=
  img.data.getD (img.getIndex c) default

/-- `image.h`: `ImageError` exception carrying a diagnostic message. -/
structure ImageError where
  msg : String
deriving DecidableEq, Repr

/-- `image.h` `detail::checkSizes`: throws `ImageError` iff the widths or the
heights differ. -/
def checkSizes {α : Type} (l r : BaseImage α) : Except ImageError Unit :=
  if l.width ≠ r.width ∨ l.height ≠ r.height then
    .error ⟨"Binary arithmetic operator on two images of different sizes."⟩
  else .ok ()

/-- `image.h` `detail::binaryOp` (buffer ⊗ buffer): checks sizes, then applies
`op` element-wise; the loop runs over `l.data().size()` indices and writes into
a `width*height`-sized output (the guard `i < l.data.length` mirrors the loop
bound; on well-formed images it is always true). -/
def binaryOp {α : Type} [Inhabited α] (l r : BaseImage α) (op : α → α → α) :
    Except ImageError (BaseImage α) :=
  match checkSizes l r with
  | .error e => .error e
  | .ok _ => .ok
      { width := l.width, height := l.height,
        data := (List.range (l.width * l.height)).map fun i =>
          if i < l.data.length then op (l.data.getD i default) (r.data.getD i default)
          else default }

/-- `image.h` `detail::binaryOp` (buffer ⊗ scalar): applies `op` with the
scalar to every element, no size requirement. -/
def scalarOp {α : Type} (l : BaseImage α) (v : ℚ) (op : α → ℚ → α) : BaseImage α :=
  { l with data := l.data.map (op · v) }

/-- `ImageGrey = BaseImage<float>`. -/
abbrev ImageGrey := BaseImage ℚ

/-- `ImageRgb = BaseImage<Pixel>`. -/
abbrev ImageRgb := BaseImage Pixel

/-! ## ImageView (`image_view.h`) -/

/-- `image_view.h`: rectangular view; the constructor floors the offset at
`(0,0)` componentwise and stores width/height unchanged. -/
structure ImageView where
  offset : Coord
  width : ℤ
  height : ℤ
deriving DecidableEq, Repr

/-- The `ImageView(offset, width, height)` constructor. -/
def ImageView.make (offset : Coord) (width height : ℤ) : ImageView :=
  ⟨⟨max 0 offset.x, max 0 offset.y⟩, width, height⟩

/-- `subView`: re-runs the constructor on a translated offset; width/height
are NOT clamped to the parent view. -/
def ImageView.subView (v : ImageView) (offset : Coord) (width height : ℤ) : ImageView :=
  ImageView.make (v.offset + offset) width height

/-- `centredSubView`: `subView(centre - Coord{width/2, height/2}, ...)`;
`coord_int` division truncates towards zero (`Int.tdiv`). -/
def ImageView.centredSubView (v : ImageView) (centre : Coord) (width height : ℤ) :
    ImageView :=
  v.subView (centre - ⟨Int.tdiv width 2, Int.tdiv height 2⟩) width height

/-- `image.h` `getView(offset, width, height)`: note the argument order of
`clamp(0, extent - offset, requested)` — the resulting extent is
`min (max 0 (extent - offset)) requested`. -/
def BaseImage.getView {α : Type} (img : BaseImage α) (offset : Coord)
    (width height : ℤ) : ImageView :=
  ⟨⟨max 0 offset.x, max 0 offset.y⟩,
   clamp 0 ((img.width : ℤ) - offset.x) width,
   clamp 0 ((img.height : ℤ) - offset.y) height⟩

/-- `image.h` `getView()`: view covering the whole image. -/
def BaseImage.fullView {α : Type} (img : BaseImage α) : ImageView :=
  img.getView ⟨0, 0⟩ img.width img.height

/-- Row-major coordinate listing of a view: what the view iterator produces
whenever `width > 0` (proved below against the iterator model). -/
def ImageView.rect (v : ImageView) : List Coord :=
  (List.range v.height.toNat).flatMap fun y =>
    (List.range v.width.toNat).map fun x => v.offset + ⟨x, y⟩

/-- `image_view.h` `iterator::operator++`: `newX = x+1; x = newX % width;
y += newX / width`. Both operands are non-negative with positive `width` in
every terminating run, where C truncating division agrees with `ediv`/`emod`;
for `width = 0` the C++ program divides by zero (undefined behaviour), which
the model maps to Lean's `x % 0 = x`, `x / 0 = 0` — the iterator then never
reaches the end sentinel, matching the non-terminating/UB behaviour. -/
def ImageView.iterStep (v : ImageView) (c : Coord) : Coord :=
  ⟨(c.x + 1) % v.width, c.y + (c.x + 1) / v.width⟩

/-- Fuelled iterator run: starting at internal coordinate `c`, produce the
coordinates (`offset + c` each step, as `operator*` does) until the end
sentinel `{0, height}` is reached; `none` if `fuel` steps do not reach it. -/
def ImageView.iterAux (v : ImageView) : ℕ → Coord → Option (List Coord)
  | 0, c => if c = ⟨0, v.height⟩ then some [] else none
  | fuel + 1, c =>
    if c = ⟨0, v.height⟩ then some []
    else (v.iterAux fuel (v.iterStep c)).map fun l => (v.offset + c) :: l

/-- Iterating a view from `begin()` (internal coordinate `{0,0}`). -/
def ImageView.iterCoords (v : ImageView) (fuel : ℕ) : Option (List Coord) :=
  v.iterAux fuel ⟨0, 0⟩

/-! ## Claim C10: the `BaseImage` constructor invariant -/

/-- C10 (code_bug evidence): the raw-pointer constructor
`BaseImage(coord_int, coord_int, const PixelT*)` violates the documented
invariant `size() == width*height`: for a 1×1 image built from a one-element
source it produces a buffer of TWO elements (one value-initialised element
from the delegated sized constructor, plus one appended by
`std::copy(..., std::back_inserter(m_data))`), while the dimensions-only and
moved-vector constructors do satisfy the invariant on this input. -/
theorem C10_fromData_breaks_size_invariant :
    (BaseImage.fromData 1 1 [(42 : ℚ)]).data.length = 2 ∧
    (BaseImage.fromData 1 1 [(42 : ℚ)]).width *
      (BaseImage.fromData 1 1 [(42 : ℚ)]).height = 1 ∧
    (BaseImage.mkSized ℚ 1 1).data.length = 1 ∧
    (BaseImage.fromVec 1 1 [(42 : ℚ)]).data.length = 1 := by
  refine ⟨rfl, rfl, rfl, rfl⟩

/-! ## Claim C8: element-wise binary operators and the size check -/

/-- On lists of equal length `n = width*height`, the guarded range-map used by
`binaryOp` is exactly `zipWith`. -/
theorem binaryOp_data_eq_zipWith {α : Type} [Inhabited α] (op : α → α → α)
    (l r : List α) (n : ℕ) (hl : l.length = n) (hr : r.length = n) :
    ((List.range n).map fun i =>
      if i < l.length then op (l.getD i default) (r.getD i default) else default) =
    List.zipWith op l r := by
  apply List.ext_getElem
  · simp [hl, hr]
  · intro i h1 h2
    have hi : i < n := by simpa using h1
    have hil : i < l.length := hl ▸ hi
    have hir : i < r.length := hr ▸ hi
    simp only [List.getElem_map, List.getElem_range, List.getElem_zipWith]
    rw [if_pos hil, List.getD_eq_getElem l default hil, List.getD_eq_getElem r default hir]

/-- C8: for every pair of buffers (with the `size() == width*height`
well-formedness invariant) and every element-wise binary operator `op` —
which covers `+`, `-`, `*`, `/` between buffers — the operation fails with
the `DimensionMismatch` (`ImageError`) error if and only if the widths or
the heights differ, and otherwise succeeds with the element-wise
(`zipWith`) result. -/
theorem C8_binaryOp_checks_sizes {α : Type} [Inhabited α] (l r : BaseImage α)
    (op : α → α → α)
    (hl : l.data.length = l.width * l.height)
    (hr : r.data.length = r.width * r.height) :
    (binaryOp l r op = Except.error
        ⟨"Binary arithmetic operator on two images of different sizes."⟩ ↔
      (l.width ≠ r.width ∨ l.height ≠ r.height)) ∧
    (l.width = r.width → l.height = r.height →
      binaryOp l r op = Except.ok ⟨l.width, l.height, List.zipWith op l.data r.data⟩) := by
  constructor
  · by_cases hc : l.width ≠ r.width ∨ l.height ≠ r.height
    · exact ⟨fun _ => hc, fun _ => by simp only [binaryOp, checkSizes, if_pos hc]⟩
    · constructor
      · intro h
        exfalso
        simp only [binaryOp, checkSizes, if_neg hc] at h
        exact Except.noConfusion h
      · intro h
        exact absurd h hc
  · intro hw hh
    have hsz : ¬(l.width ≠ r.width ∨ l.height ≠ r.height) := by
      push_neg
      exact ⟨hw, hh⟩
    simp only [binaryOp, checkSizes, if_neg hsz]
    have hrl : r.data.length = l.width * l.height := by rw [hr, hw, hh]
    rw [binaryOp_data_eq_zipWith op l.data r.data (l.width * l.height) hl hrl]

/-- C8 witness: a concrete mismatched pair errors, a concrete matching pair
returns the element-wise sum. -/
theorem C8_binaryOp_checks_sizes_witness :
    binaryOp (⟨1, 2, [1, 2]⟩ : ImageGrey) ⟨2, 1, [3, 4]⟩ (· + ·) = Except.error
      ⟨"Binary arithmetic operator on two images of different sizes."⟩ ∧
    binaryOp (⟨2, 1, [1, 2]⟩ : ImageGrey) ⟨2, 1, [3, 4]⟩ (· + ·) =
      Except.ok ⟨2, 1, [4, 6]⟩ := by
  constructor
  · exact (C8_binaryOp_checks_sizes ⟨1, 2, [1, 2]⟩ ⟨2, 1, [3, 4]⟩ (· + ·)
      (by decide) (by decide)).1.mpr (by decide)
  · have h := (C8_binaryOp_checks_sizes (⟨2, 1, [1, 2]⟩ : ImageGrey) ⟨2, 1, [3, 4]⟩
      (· + ·) (by decide) (by decide)).2 rfl rfl
    rw [h]
    norm_num [List.zipWith]

/-! ## Claim C9: view clamping and iteration -/

/-- Splitting the first element off an index-shifted `range` map. -/
theorem map_range_succ_shift {β : Type} (g : ℕ → β) (k nx : ℕ) :
    (List.range (k + 1)).map (fun i => g (nx + i)) =
      g nx :: (List.range k).map fun i => g (nx + 1 + i) := by
  rw [List.range_succ_eq_map]
  simp only [List.map_cons, List.map_map, Nat.add_zero]
  refine congrArg _ (List.map_congr_left fun i _ => ?_)
  simp only [Function.comp_apply, Nat.succ_eq_add_one]
  exact congrArg g (by omega)

/-- Running the iterator along one row: from internal coordinate `(nx, ny)`
with `k+1` cells left in the row, the iterator emits those cells and then
continues from `(0, ny+1)`. -/
theorem ImageView.iterAux_row (v : ImageView) (hw : 0 < v.width) (rest : List Coord)
    (f : ℕ) :
    ∀ (k nx : ℕ), nx + k + 1 = v.width.toNat → ∀ (ny : ℤ), ny ≠ v.height →
    v.iterAux f ⟨0, ny + 1⟩ = some rest →
    v.iterAux (k + 1 + f) ⟨nx, ny⟩ =
      some (((List.range (k + 1)).map fun i =>
        v.offset + (⟨((nx + i : ℕ) : ℤ), ny⟩ : Coord)) ++ rest) := by
  have hwz : v.width = (v.width.toNat : ℤ) := (Int.toNat_of_nonneg hw.le).symm
  intro k
  induction k with
  | zero =>
    intro nx hnx ny hny hrest
    have hne : (⟨nx, ny⟩ : Coord) ≠ ⟨0, v.height⟩ := by
      intro hcon
      exact hny (congrArg Coord.y hcon)
    have hx : ((nx : ℤ) + 1) = v.width := by
      rw [hwz]
      exact_mod_cast congrArg (fun t : ℕ => (t : ℤ)) hnx
    have h01 : 0 + 1 + f = f + 1 := by omega
    rw [h01]
    show (if (⟨nx, ny⟩ : Coord) = ⟨0, v.height⟩ then some []
      else (v.iterAux f (v.iterStep ⟨nx, ny⟩)).map fun l => (v.offset + ⟨nx, ny⟩) :: l) = _
    rw [if_neg hne]
    have hstep : v.iterStep ⟨nx, ny⟩ = ⟨0, ny + 1⟩ := by
      simp only [ImageView.iterStep, hx]
      rw [Int.emod_self, Int.ediv_self (by positivity)]
    rw [hstep, hrest]
    have hr1 : List.range 1 = [0] := rfl
    rw [hr1]
    simp
  | succ k ih =>
    intro nx hnx ny hny hrest
    have hne : (⟨nx, ny⟩ : Coord) ≠ ⟨0, v.height⟩ := by
      intro hcon
      exact hny (congrArg Coord.y hcon)
    have hx : ((nx : ℤ) + 1) < v.width := by
      rw [hwz]
      have h2 : nx + 1 < v.width.toNat := by omega
      exact_mod_cast h2
    have hsplit : k + 1 + 1 + f = (k + 1 + f) + 1 := by omega
    rw [hsplit]
    show (if (⟨nx, ny⟩ : Coord) = ⟨0, v.height⟩ then some []
      else (v.iterAux (k + 1 + f) (v.iterStep ⟨nx, ny⟩)).map
        fun l => (v.offset + ⟨nx, ny⟩) :: l) = _
    rw [if_neg hne]
    have hstep : v.iterStep ⟨nx, ny⟩ = ⟨((nx + 1 : ℕ) : ℤ), ny⟩ := by
      simp only [ImageView.iterStep]
      rw [Int.emod_eq_of_lt (by positivity) hx, Int.ediv_eq_zero_of_lt (by positivity) hx]
      simp
    rw [hstep, ih (nx + 1) (by omega) ny hny hrest]
    simp only [Option.map_some']
    refine congrArg some ?_
    rw [map_range_succ_shift (fun m => v.offset + (⟨(m : ℕ), ny⟩ : Coord)) (k + 1) nx]
    simp

/-- Splitting the first block off an index-shifted `range` flatMap. -/
theorem flatMap_range_succ_shift {β : Type} (g : ℕ → List β) (m : ℕ) :
    (List.range (m + 1)).flatMap g = g 0 ++ (List.range m).flatMap fun j => g (j + 1) := by
  rw [List.range_succ_eq_map, List.flatMap_cons, List.flatMap_map]

/-- Running the iterator over the `m` remaining full rows, starting at the
beginning of a row. -/
theorem ImageView.iterAux_rows (v : ImageView) (hw : 0 < v.width) :
    ∀ (m : ℕ) (ny : ℤ), ny + m = v.height →
    v.iterAux (m * v.width.toNat) ⟨0, ny⟩ =
      some ((List.range m).flatMap fun j =>
        (List.range v.width.toNat).map fun x => v.offset + ⟨x, ny + j⟩) := by
  intro m
  induction m with
  | zero =>
    intro ny hny
    have hy : ny = v.height := by
      push_cast at hny
      omega
    simp only [Nat.zero_mul, List.range_zero, List.flatMap_nil]
    show (if (⟨0, ny⟩ : Coord) = ⟨0, v.height⟩ then some [] else none) = some []
    rw [if_pos (by rw [hy])]
  | succ m ih =>
    intro ny hny
    have hy : ny ≠ v.height := by
      intro hcon
      rw [hcon] at hny
      push_cast at hny
      omega
    have hrest := ih (ny + 1) (by push_cast at hny ⊢; omega)
    have hrow := v.iterAux_row hw _ (m * v.width.toNat) (v.width.toNat - 1) 0
      (by omega) ny hy hrest
    have hfuel : v.width.toNat - 1 + 1 + m * v.width.toNat = (m + 1) * v.width.toNat := by
      have h1 : 0 < v.width.toNat := by omega
      cases m with
      | zero => omega
      | succ m2 =>
        have : (m2 + 1 + 1) * v.width.toNat = v.width.toNat + (m2 + 1) * v.width.toNat := by
          ring
        omega

    simp only [Nat.cast_zero, Nat.zero_add] at hrow
    rw [← hfuel, hrow]
    refine congrArg some ?_
    rw [flatMap_range_succ_shift]
    have hk1 : v.width.toNat - 1 + 1 = v.width.toNat := by omega
    rw [hk1]
    refine congrArg₂ _ (List.map_congr_left fun x _ => ?_) ?_
    · refine congrArg (fun c : Coord => v.offset + c) ?_
      simp
    · refine congrArg₂ _ rfl (funext fun j => ?_)
      refine congrArg (List.map ·  (List.range v.width.toNat)) (funext fun x => ?_)
      refine congrArg (fun c : Coord => v.offset + c) ?_
      refine congrArg (fun t : ℤ => Coord.mk x t) ?_
      push_cast
      ring

/-- A view with positive width and non-negative height iterates exactly its
row-major rectangle. -/
theorem ImageView.iterCoords_eq_rect (v : ImageView) (hw : 0 < v.width)
    (hh : 0 ≤ v.height) :
    v.iterCoords (v.height.toNat * v.width.toNat) = some v.rect := by
  have h := v.iterAux_rows hw v.height.toNat 0 (by rw [Int.toNat_of_nonneg hh]; ring)
  simp only [zero_add] at h
  rw [ImageView.iterCoords, ImageView.rect]
  exact h

/-- With `width = 0` and `height ≠ 0` the iterator never reaches the end
sentinel: the C++ `operator++` divides by zero on the first increment. -/
theorem ImageView.iterAux_zero_width (v : ImageView) (hw : v.width = 0)
    (hh : v.height ≠ 0) : ∀ (fuel : ℕ) (x : ℤ), v.iterAux fuel ⟨x, 0⟩ = none := by
  intro fuel
  induction fuel with
  | zero =>
    intro x
    show (if (⟨x, 0⟩ : Coord) = ⟨0, v.height⟩ then some [] else none) = none
    rw [if_neg]
    intro hcon
    exact hh (congrArg Coord.y hcon).symm
  | succ f ihf =>
    intro x
    show (if (⟨x, 0⟩ : Coord) = ⟨0, v.height⟩ then some []
      else (v.iterAux f (v.iterStep ⟨x, 0⟩)).map fun l => (v.offset + ⟨x, 0⟩) :: l) = none
    rw [if_neg (fun hcon => hh (congrArg Coord.y hcon).symm)]
    have hstep : v.iterStep ⟨x, 0⟩ = ⟨x + 1, 0⟩ := by
      simp [ImageView.iterStep, hw]
    rw [hstep, ihf (x + 1)]
    rfl

/-- The rectangle listing has exactly `width·height` coordinates. -/
theorem ImageView.rect_length (v : ImageView) :
    v.rect.length = v.width.toNat * v.height.toNat := by
  rw [ImageView.rect, List.length_flatMap]
  simp only [Function.comp_def, List.length_map, List.length_range]
  rw [List.map_const', List.length_range, List.sum_replicate, smul_eq_mul, Nat.mul_comm]

/-- C9 (amended): what `getView` and view iteration actually guarantee.
`getView` floors the offset at `(0,0)` componentwise and sets the extent to
`min (max 0 (bufferExtent - requestedOffset)) requestedExtent` per axis (so
overhang past the right/bottom is clamped to the overlap, while a negative
offset is floored without shrinking the extent). For a resulting view of
positive width and non-negative height, iteration terminates and produces
exactly `width·height` coordinates in row-major order; those coordinates stay
inside the buffer whenever the requested offset was non-negative. A view of
zero width but non-zero height never terminates (the iterator divides by
zero). Sub-views are NOT clamped to their parent (see the counterexample). -/
theorem C9_getView_iteration {α : Type} (img : BaseImage α) (off : Coord) (w h : ℤ) :
    img.getView off w h =
      ⟨⟨max 0 off.x, max 0 off.y⟩,
        min (max 0 ((img.width : ℤ) - off.x)) w,
        min (max 0 ((img.height : ℤ) - off.y)) h⟩ ∧
    (0 < (img.getView off w h).width → 0 ≤ (img.getView off w h).height →
      (img.getView off w h).iterCoords
          ((img.getView off w h).height.toNat * (img.getView off w h).width.toNat) =
        some (img.getView off w h).rect ∧
      (img.getView off w h).rect.length =
        (img.getView off w h).width.toNat * (img.getView off w h).height.toNat) ∧
    (0 ≤ off.x → 0 ≤ off.y →
      ∀ c ∈ (img.getView off w h).rect,
        0 ≤ c.x ∧ c.x < (img.width : ℤ) ∧ 0 ≤ c.y ∧ c.y < (img.height : ℤ)) ∧
    ((img.getView off w h).width = 0 → (img.getView off w h).height ≠ 0 →
      ∀ fuel, (img.getView off w h).iterCoords fuel = none) := by
  refine ⟨rfl, fun hw hh => ⟨(img.getView off w h).iterCoords_eq_rect hw hh,
    (img.getView off w h).rect_length⟩, ?_, fun h0 hne fuel =>
    (img.getView off w h).iterAux_zero_width h0 hne fuel 0⟩
  intro hox hoy c hc
  simp only [ImageView.rect, List.mem_flatMap, List.mem_map, List.mem_range] at hc
  obtain ⟨y, hy, x, hx, rfl⟩ := hc
  have hwv : (img.getView off w h).width = min (max 0 ((img.width : ℤ) - off.x)) w := rfl
  have hhv : (img.getView off w h).height = min (max 0 ((img.height : ℤ) - off.y)) h := rfl
  have hov : (img.getView off w h).offset = ⟨max 0 off.x, max 0 off.y⟩ := rfl
  rw [hwv] at hx
  rw [hhv] at hy
  rw [hov]
  refine ⟨?_, ?_, ?_, ?_⟩ <;> simp only [Coord.add_def] <;> omega

/-- C9 counterexample: (a) a `subView` of a full view over a 2×2 buffer is
not clamped to the parent — it stores width 5 and iterates coordinates such
as `(3,0)`, `(5,0)` outside the parent's bounds; (b) `getView` with a
negative offset floors the offset but keeps the requested width, yielding a
width-2 view over a 1×1 buffer. -/
theorem C9_subView_escapes_parent :
    (BaseImage.mkSized ℚ 2 2).fullView.subView ⟨1, 0⟩ 5 1 = ⟨⟨1, 0⟩, 5, 1⟩ ∧
    ((BaseImage.mkSized ℚ 2 2).fullView.subView ⟨1, 0⟩ 5 1).iterCoords 5 =
      some [⟨1, 0⟩, ⟨2, 0⟩, ⟨3, 0⟩, ⟨4, 0⟩, ⟨5, 0⟩] ∧
    ¬((3 : ℤ) < (BaseImage.mkSized ℚ 2 2).fullView.offset.x +
        (BaseImage.mkSized ℚ 2 2).fullView.width) ∧
    (BaseImage.mkSized ℚ 1 1).getView ⟨-1, 0⟩ 2 1 = ⟨⟨0, 0⟩, 2, 1⟩ ∧
    ¬((BaseImage.mkSized ℚ 1 1).getView ⟨-1, 0⟩ 2 1).width ≤
        ((BaseImage.mkSized ℚ 1 1).width : ℤ) := by
  refine ⟨rfl, by decide, by decide, rfl, by decide⟩

/-- C9 witness: iterating a concrete clamped view over a 3×2 buffer. -/
theorem C9_getView_iteration_witness :
    ((BaseImage.mkSized ℚ 3 2).getView ⟨1, 0⟩ 5 5).iterCoords 4 =
      some [⟨1, 0⟩, ⟨2, 0⟩, ⟨1, 1⟩, ⟨2, 1⟩] := by
  have h := (C9_getView_iteration (BaseImage.mkSized ℚ 3 2) ⟨1, 0⟩ 5 5).2.1
    (by decide) (by decide)
  exact h.1.trans (by decide)

/-! ## Box filter (`filters.tpp`)

`boxFilter(image, r)` copies the image and runs `boxFilterPass<false>` then
`boxFilterPass<true>` — both with `windowSize := coord_int(r)` (the raw `r`,
NOT `2r+1`). Each pass processes one row (resp. column) at a time through a
sliding accumulator and writes the finished row back before moving on, so the
pass equals mapping an independent 1D pass over rows (resp. columns); every
image access made by a pass is in bounds, so the border-clamping `operator[]`
reads exactly the indexed element (modelled by `List.getD`). -/

/-- The inner `o`-loop of `boxFilterPass` (`filters.tpp` lines 26–45): one
iteration updates `accum`/`weight` exactly as the source branches do and, for
`o ≥ halfWindowSize`, emits `accum / float(weight)` into the output row.
`fuel` is the number of remaining iterations; the loop runs `o` from `0` to
`innerSize + halfWindowSize - 1`. -/
def boxPassGo (get : ℕ → ℚ) (n w half : ℕ) : ℕ → ℕ → ℚ → ℕ → List ℚ
  | 0, _, _, _ => []
  | fuel + 1, o, accum, weight =>
    let weight1 := if o < w then weight + 1 else weight
    let accum1 := if o < w then accum else accum - get (o - w)
    let accum2 := if o < n then accum1 + get o else accum1
    let weight2 := if o < n then weight1 else weight1 - 1
    let rest := boxPassGo get n w half fuel (o + 1) accum2 weight2
    if half ≤ o then accum2 / (weight2 : ℚ) :: rest else rest

/-- One full 1D pass over a row/column `xs` with window size `w`
(`halfWindowSize = w / 2`). -/
def boxPass1D (xs : List ℚ) (w : ℕ) : List ℚ :=
  boxPassGo (fun q => xs.getD q 0) xs.length w (w / 2) (xs.length + w / 2) 0 0 0

/-- Row `y` of a greyscale image's row-major data. -/
def imgRow (img : ImageGrey) (y : ℕ) : List ℚ :=
  (List.range img.width).map fun x => img.data.getD (y * img.width + x) 0

/-- Column `x` of a greyscale image's row-major data. -/
def imgCol (img : ImageGrey) (x : ℕ) : List ℚ :=
  (List.range img.height).map fun y => img.data.getD (y * img.width + x) 0

/-- `boxFilterPass<false>` (horizontal): every row replaced by its 1D pass. -/
def boxFilterPassH (img : ImageGrey) (w : ℕ) : ImageGrey :=
  ⟨img.width, img.height,
    ((List.range img.height).map fun y => boxPass1D (imgRow img y) w).flatten⟩

/-- `boxFilterPass<true>` (vertical): every column replaced by its 1D pass,
written back in row-major order. -/
def boxFilterPassV (img : ImageGrey) (w : ℕ) : ImageGrey :=
  ⟨img.width, img.height,
    (List.range img.height).flatMap fun y =>
      (List.range img.width).map fun x => (boxPass1D (imgCol img x) w).getD y 0⟩

/-- `filters.tpp` `boxFilter(image, r)`: horizontal pass then vertical pass,
both with window size `radius = coord_int(r)`. -/
def boxFilter (image : ImageGrey) (r : ℕ) : ImageGrey :=
  boxFilterPassV (boxFilterPassH image r) r

/-- The accumulator value at entry of iteration `o`: the sum of the elements
with index in `[o-w, o-1] ∩ [0, n-1]` (encoded without ℕ subtraction). -/
def preSum (get : ℕ → ℚ) (n w o : ℕ) : ℚ :=
  ∑ q ∈ Finset.range n, if q < o ∧ o ≤ q + w then get q else 0

/-- The `weight` counter at entry of iteration `o`: `min o w` increments minus
`o - n` decrements. -/
def preW (n w o : ℕ) : ℕ := min o w - (o - n)

/-- The in-bounds sample window whose mean is written at output position `p`
(window `[p+h-w+1, p+h] ∩ [0, n-1]` for `h = w/2`, encoded at `o = p + h`). -/
def winSet (n w o : ℕ) : Finset ℕ :=
  (Finset.range n).filter fun q => q ≤ o ∧ o < q + w

theorem preSum_zero (get : ℕ → ℚ) (n w : ℕ) : preSum get n w 0 = 0 := by
  rw [preSum]
  refine Finset.sum_eq_zero fun q _ => ?_
  rw [if_neg]
  omega

theorem preW_zero (n w : ℕ) : preW n w 0 = 0 := by
  simp [preW]

/-- The accumulator update performed by iteration `o` advances `preSum`. -/
theorem preSum_succ_eq (get : ℕ → ℚ) (n w o : ℕ) (hw : 1 ≤ w) (hon : o < n + w) :
    preSum get n w (o + 1) =
      preSum get n w o - (if w ≤ o then get (o - w) else 0) +
        (if o < n then get o else 0) := by
  have hpt : ∀ q ∈ Finset.range n,
      (if q < o + 1 ∧ o + 1 ≤ q + w then get q else 0) =
        (if q < o ∧ o ≤ q + w then get q else 0) -
          (if q = o - w ∧ w ≤ o then get q else 0) +
          (if q = o then get q else 0) := by
    intro q hq
    rw [Finset.mem_range] at hq
    by_cases hqo : q = o
    · subst hqo
      rw [if_pos ⟨Nat.lt_succ_self q, by omega⟩, if_neg (by omega : ¬(q < q ∧ q ≤ q + w)),
        if_neg (by omega : ¬(q = q - w ∧ w ≤ q)), if_pos rfl]
      ring
    · by_cases hqow : q = o - w ∧ w ≤ o
      · rw [if_neg (by omega), if_pos (by omega), if_pos hqow, if_neg hqo]
        ring
      · rw [if_neg hqow, if_neg hqo]
        by_cases hcond : q < o ∧ o ≤ q + w
        · rw [if_pos hcond, if_pos (by omega)]
          ring
        · rw [if_neg hcond, if_neg (by omega)]
          ring
  rw [preSum, Finset.sum_congr rfl hpt, Finset.sum_add_distrib, Finset.sum_sub_distrib]
  rw [preSum]
  refine congrArg₂ _ (congrArg₂ _ rfl ?_) ?_
  · by_cases hwo : w ≤ o
    · have h1 : ∀ q ∈ Finset.range n,
          (if q = o - w ∧ w ≤ o then get q else 0) = (if q = o - w then get q else 0) :=
        fun q _ => by
          by_cases hq : q = o - w
          · rw [if_pos ⟨hq, hwo⟩, if_pos hq]
          · rw [if_neg (fun hc => hq hc.1), if_neg hq]
      rw [Finset.sum_congr rfl h1, Finset.sum_ite_eq' (Finset.range n) (o - w) get,
        if_pos (Finset.mem_range.mpr (by omega)), if_pos hwo]
    · have h1 : ∀ q ∈ Finset.range n, (if q = o - w ∧ w ≤ o then get q else 0) = 0 :=
        fun q _ => by rw [if_neg (fun hc => hwo hc.2)]
      rw [Finset.sum_congr rfl h1, Finset.sum_const, smul_zero, if_neg hwo]
  · rw [Finset.sum_ite_eq' (Finset.range n) o get]
    by_cases hon2 : o < n
    · rw [if_pos (Finset.mem_range.mpr hon2), if_pos hon2]
    · rw [if_neg (fun hc => hon2 (Finset.mem_range.mp hc)), if_neg hon2]

/-- The weight update performed by iteration `o` advances `preW`. -/
theorem preW_succ_eq (n w o : ℕ) (hw : 1 ≤ w) (ho : o < n + w / 2) :
    (if o < n then (if o < w then preW n w o + 1 else preW n w o)
      else (if o < w then preW n w o + 1 else preW n w o) - 1) = preW n w (o + 1) := by
  have hhalf : w / 2 ≤ w := Nat.div_le_self w 2
  simp only [preW]
  split_ifs <;> omega

/-- At every output position the weight is positive. -/
theorem preW_pos (n w o : ℕ) (hw : 1 ≤ w) (hlo : w / 2 < o + 1) (hhi : o < n + w / 2) :
    0 < preW n w (o + 1) := by
  have h2 : w / 2 + 1 ≤ w := by omega
  simp only [preW]
  omega

/-- The sample window is the clipped integer interval `[o+1-w, min(o, n-1)]`. -/
theorem winSet_eq_Ico (n w o : ℕ) :
    winSet n w o = Finset.Ico (o + 1 - w) (min (o + 1) n) := by
  refine Finset.ext fun q => ?_
  simp only [winSet, Finset.mem_filter, Finset.mem_range, Finset.mem_Ico]
  omega

/-- The weight equals the number of in-bounds samples in the window. -/
theorem preW_eq_card (n w o : ℕ) : preW n w (o + 1) = (winSet n w o).card := by
  rw [winSet_eq_Ico, Nat.card_Ico, preW]
  omega

/-- `preSum` at the output step is the sum over the in-bounds window. -/
theorem preSum_eq_winSet_sum (get : ℕ → ℚ) (n w o : ℕ) :
    preSum get n w (o + 1) = ∑ q ∈ winSet n w o, get q := by
  rw [preSum, winSet, Finset.sum_filter]
  refine Finset.sum_congr rfl fun q _ => ?_
  by_cases hc : q ≤ o ∧ o < q + w
  · rw [if_pos (by omega), if_pos hc]
  · rw [if_neg (by omega), if_neg hc]

theorem range_drop_cons {n k : ℕ} (h : k < n) :
    (List.range n).drop k = k :: (List.range n).drop (k + 1) := by
  have h2 := List.getElem_cons_drop (List.range n) k (by simpa using h)
  rw [List.getElem_range] at h2
  exact h2.symm

/-- Value written at output position `p` by a 1D pass (`h = w/2`):
window sum over `[p+h-w+1, p+h]` divided by the weight. -/
def outVal (get : ℕ → ℚ) (n w p : ℕ) : ℚ :=
  preSum get n w (p + w / 2 + 1) / ((preW n w (p + w / 2 + 1) : ℕ) : ℚ)

/-- One unfolding of the loop body (the `let`s of `boxPassGo` inlined). -/
theorem boxPassGo_step (get : ℕ → ℚ) (n w half fuel o : ℕ) (accum : ℚ) (weight : ℕ) :
    boxPassGo get n w half (fuel + 1) o accum weight =
      if half ≤ o then
        (if o < n then (if o < w then accum else accum - get (o - w)) + get o
          else (if o < w then accum else accum - get (o - w))) /
          (((if o < n then (if o < w then weight + 1 else weight)
            else (if o < w then weight + 1 else weight) - 1) : ℕ) : ℚ) ::
        boxPassGo get n w half fuel (o + 1)
          (if o < n then (if o < w then accum else accum - get (o - w)) + get o
            else (if o < w then accum else accum - get (o - w)))
          (if o < n then (if o < w then weight + 1 else weight)
            else (if o < w then weight + 1 else weight) - 1)
      else
        boxPassGo get n w half fuel (o + 1)
          (if o < n then (if o < w then accum else accum - get (o - w)) + get o
            else (if o < w then accum else accum - get (o - w)))
          (if o < n then (if o < w then weight + 1 else weight)
            else (if o < w then weight + 1 else weight) - 1) := rfl

/-- Loop invariant of the sliding-window pass: entering iteration `o` with
`accum = preSum o` and `weight = preW o`, the remaining iterations emit
exactly the window means for output positions `o - w/2 … n-1`. -/
theorem boxPassGo_spec (get : ℕ → ℚ) (n w : ℕ) (hw : 1 ≤ w) :
    ∀ (fuel o : ℕ), fuel + o = n + w / 2 →
    boxPassGo get n w (w / 2) fuel o (preSum get n w o) (preW n w o) =
      ((List.range n).drop (o - w / 2)).map (outVal get n w) := by
  intro fuel
  induction fuel with
  | zero =>
    intro o ho
    rw [List.drop_eq_nil_of_le (by rw [List.length_range]; omega)]
    rfl
  | succ fuel ih =>
    intro o ho
    have hon : o < n + w := by omega
    have ho2 : o < n + w / 2 := by omega
    have haccum : (if o < n then
          (if o < w then preSum get n w o else preSum get n w o - get (o - w)) + get o
        else (if o < w then preSum get n w o else preSum get n w o - get (o - w))) =
        preSum get n w (o + 1) := by
      rw [preSum_succ_eq get n w o hw hon]
      split_ifs <;>
        first
        | (exfalso; omega)
        | ring
    have hweight := preW_succ_eq n w o hw ho2
    rw [boxPassGo_step, haccum, hweight, ih (o + 1) (by omega)]
    by_cases hhalf : w / 2 ≤ o
    · rw [if_pos hhalf, range_drop_cons (show o - w / 2 < n by omega), List.map_cons]
      have hidx : o - w / 2 + w / 2 + 1 = o + 1 := by omega
      have hdrop : o + 1 - w / 2 = o - w / 2 + 1 := by omega
      rw [outVal, hidx, hdrop]
    · rw [if_neg hhalf]
      have h1 : o - w / 2 = 0 := by omega
      have h2 : o + 1 - w / 2 = 0 := by omega
      rw [h1, h2]

/-- The 1D pass computes, at every position, the clipped-window mean. -/
theorem boxPass1D_spec (xs : List ℚ) (w : ℕ) (hw : 1 ≤ w) :
    boxPass1D xs w =
      (List.range xs.length).map (outVal (fun q => xs.getD q 0) xs.length w) := by
  have h := boxPassGo_spec (fun q => xs.getD q 0) xs.length w hw
    (xs.length + w / 2) 0 (by omega)
  rw [preSum_zero, preW_zero] at h
  rw [boxPass1D, h]
  norm_num

theorem boxPass1D_length (xs : List ℚ) (w : ℕ) (hw : 1 ≤ w) :
    (boxPass1D xs w).length = xs.length := by
  rw [boxPass1D_spec xs w hw, List.length_map, List.length_range]

theorem getD_map_range {α : Type} (f : ℕ → α) {k n : ℕ} (h : k < n) (d : α) :
    ((List.range n).map f).getD k d = f k := by
  rw [List.getD_eq_getElem _ _ (by simpa using h), List.getElem_map, List.getElem_range]

/-- Row-major access into a flattened list of equal-length rows. -/
theorem flatten_getD {α : Type} {W : ℕ} :
    ∀ (ls : List (List α)), (∀ l ∈ ls, l.length = W) →
    ∀ (y x : ℕ), y < ls.length → x < W → ∀ (d : α),
    ls.flatten.getD (y * W + x) d = (ls.getD y []).getD x d := by
  intro ls
  induction ls with
  | nil =>
    intro _ y x hy
    simp at hy
  | cons l ls ih =>
    intro hlen y x hy hx d
    have hl : l.length = W := hlen l (List.mem_cons_self l ls)
    cases y with
    | zero =>
      simp only [List.flatten_cons, Nat.zero_mul, Nat.zero_add, List.getD_cons_zero]
      exact List.getD_append l ls.flatten d x (by omega)
    | succ y =>
      simp only [List.flatten_cons, List.getD_cons_succ]
      have hidx : (y + 1) * W + x = l.length + (y * W + x) := by
        rw [hl]
        ring
      rw [hidx, List.getD_append_right l ls.flatten d _ (by omega)]
      have hsub : l.length + (y * W + x) - l.length = y * W + x := by omega
      rw [hsub]
      exact ih (fun t ht => hlen t (List.mem_cons_of_mem l ht)) y x
        (by simpa using hy) hx d

/-- Access into the horizontal pass: each output element comes from the 1D
pass over its own row. -/
theorem boxFilterPassH_getD (img : ImageGrey) (w : ℕ) (hw : 1 ≤ w)
    {x y : ℕ} (hx : x < img.width) (hy : y < img.height) :
    (boxFilterPassH img w).data.getD (y * img.width + x) 0 =
      (boxPass1D (imgRow img y) w).getD x 0 := by
  rw [boxFilterPassH]
  have hrows : ∀ l ∈ (List.range img.height).map fun y2 => boxPass1D (imgRow img y2) w,
      l.length = img.width := by
    intro l hl
    rw [List.mem_map] at hl
    obtain ⟨y2, _, rfl⟩ := hl
    rw [boxPass1D_length _ _ hw, imgRow, List.length_map, List.length_range]
  rw [flatten_getD _ hrows y x (by simpa using hy) hx 0,
    getD_map_range (fun y2 => boxPass1D (imgRow img y2) w) hy]

/-- Access into the vertical pass: each output element comes from the 1D pass
over its own column. -/
theorem boxFilterPassV_getD (img : ImageGrey) (w : ℕ)
    {x y : ℕ} (hx : x < img.width) (hy : y < img.height) :
    (boxFilterPassV img w).data.getD (y * img.width + x) 0 =
      (boxPass1D (imgCol img x) w).getD y 0 := by
  rw [boxFilterPassV, List.flatMap_def]
  have hrows : ∀ l ∈ (List.range img.height).map fun y2 =>
      (List.range img.width).map fun x2 => (boxPass1D (imgCol img x2) w).getD y2 0,
      l.length = img.width := by
    intro l hl
    rw [List.mem_map] at hl
    obtain ⟨y2, _, rfl⟩ := hl
    rw [List.length_map, List.length_range]
  rw [flatten_getD _ hrows y x (by simpa using hy) hx 0,
    getD_map_range (fun y2 => (List.range img.width).map
      fun x2 => (boxPass1D (imgCol img x2) w).getD y2 0) hy,
    getD_map_range (fun x2 => (boxPass1D (imgCol img x2) w).getD y 0) hx]

/-- The 1D pass output at an in-range position, as a clipped-window mean. -/
theorem boxPass1D_getD (xs : List ℚ) (w : ℕ) (hw : 1 ≤ w) {p : ℕ}
    (hp : p < xs.length) :
    (boxPass1D xs w).getD p 0 =
      (∑ q ∈ winSet xs.length w (p + w / 2), xs.getD q 0) /
        ((preW xs.length w (p + w / 2 + 1) : ℕ) : ℚ) := by
  rw [boxPass1D_spec xs w hw, getD_map_range (outVal (fun q => xs.getD q 0) xs.length w) hp,
    outVal, preSum_eq_winSet_sum]

/-- At the top-left corner of a large enough image, the two per-axis weights
are `⌊r/2⌋+1` each. -/
theorem preW_corner (W H r : ℕ) (hr : 1 ≤ r) (x y : ℕ) (hx0 : x = 0) (hy0 : y = 0)
    (hW : 2 * r + 1 ≤ W) (hH : 2 * r + 1 ≤ H) :
    preW W r (x + r / 2 + 1) * preW H r (y + r / 2 + 1) = (r / 2 + 1) * (r / 2 + 1) := by
  subst hx0
  subst hy0
  have h1 : preW W r (0 + r / 2 + 1) = r / 2 + 1 := by
    simp only [preW]
    omega
  have h2 : preW H r (0 + r / 2 + 1) = r / 2 + 1 := by
    simp only [preW]
    omega
  rw [h1, h2]

/-- C3 (amended): for every radius `r ≥ 1`, `boxFilter(image, r)` computes at
each pixel the arithmetic mean of the square window of side `r` (NOT `2r+1`)
per axis — the window spans offsets `[⌊r/2⌋-r+1, ⌊r/2⌋]` relative to the
pixel, clipped at the image edges — with the divisor equal to the number of
in-bounds contributing samples; the weight at the top-left corner pixel of an
image of size ≥ 2r+1 is `(⌊r/2⌋+1)²`, not `(r+1)²`. -/
theorem C3_boxFilter_window_size_r (img : ImageGrey) (r : ℕ) (hr : 1 ≤ r)
    {x y : ℕ} (hx : x < img.width) (hy : y < img.height) :
    (boxFilter img r).data.getD (y * img.width + x) 0 =
      (∑ qy ∈ winSet img.height r (y + r / 2), ∑ qx ∈ winSet img.width r (x + r / 2),
        img.data.getD (qy * img.width + qx) 0) /
      ((preW img.width r (x + r / 2 + 1) * preW img.height r (y + r / 2 + 1) : ℕ) : ℚ) ∧
    preW img.width r (x + r / 2 + 1) = (winSet img.width r (x + r / 2)).card ∧
    preW img.height r (y + r / 2 + 1) = (winSet img.height r (y + r / 2)).card ∧
    0 < preW img.width r (x + r / 2 + 1) ∧
    winSet img.width r (x + r / 2) =
      Finset.Ico (x + r / 2 + 1 - r) (min (x + r / 2 + 1) img.width) ∧
    (x = 0 → y = 0 → 2 * r + 1 ≤ img.width → 2 * r + 1 ≤ img.height →
      preW img.width r (x + r / 2 + 1) * preW img.height r (y + r / 2 + 1) =
        (r / 2 + 1) * (r / 2 + 1)) := by
  have hW1 : (boxFilterPassH img r).width = img.width := rfl
  have hH1 : (boxFilterPassH img r).height = img.height := rfl
  refine ⟨?_, preW_eq_card _ _ _, preW_eq_card _ _ _,
    preW_pos _ _ _ hr (by omega) (by omega), winSet_eq_Ico _ _ _,
    fun hx0 hy0 hWr hHr =>
      preW_corner img.width img.height r hr x y hx0 hy0 hWr hHr⟩
  have h1 : (boxFilter img r).data.getD (y * img.width + x) 0 =
      (boxPass1D (imgCol (boxFilterPassH img r) x) r).getD y 0 := by
    rw [boxFilter]
    exact boxFilterPassV_getD (boxFilterPassH img r) r (by rw [hW1]; exact hx)
      (by rw [hH1]; exact hy)
  have hlen : (imgCol (boxFilterPassH img r) x).length = img.height := by
    rw [imgCol, List.length_map, List.length_range, hH1]
  have h2 : (boxPass1D (imgCol (boxFilterPassH img r) x) r).getD y 0 =
      (∑ qy ∈ winSet img.height r (y + r / 2),
        (imgCol (boxFilterPassH img r) x).getD qy 0) /
        ((preW img.height r (y + r / 2 + 1) : ℕ) : ℚ) := by
    have h := boxPass1D_getD (imgCol (boxFilterPassH img r) x) r hr
      (p := y) (by rw [hlen]; exact hy)
    rw [hlen] at h
    exact h
  have h3 : ∀ qy ∈ winSet img.height r (y + r / 2),
      (imgCol (boxFilterPassH img r) x).getD qy 0 =
        (∑ qx ∈ winSet img.width r (x + r / 2), img.data.getD (qy * img.width + qx) 0) /
          ((preW img.width r (x + r / 2 + 1) : ℕ) : ℚ) := by
    intro qy hqy
    have hqy2 : qy < img.height := by
      have hm := (Finset.mem_filter.mp hqy).1
      simpa using hm
    rw [imgCol, getD_map_range _ (show qy < (boxFilterPassH img r).height from hqy2),
      hW1, boxFilterPassH_getD img r hr hx hqy2]
    have hrowlen : (imgRow img qy).length = img.width := by
      rw [imgRow, List.length_map, List.length_range]
    have h := boxPass1D_getD (imgRow img qy) r hr (p := x) (by rw [hrowlen]; exact hx)
    rw [hrowlen] at h
    rw [h]
    refine congrArg₂ _ (Finset.sum_congr rfl fun qx hqx => ?_) rfl
    have hqx2 : qx < img.width := by
      have hm := (Finset.mem_filter.mp hqx).1
      simpa using hm
    rw [imgRow, getD_map_range _ hqx2]
  rw [h1, h2, Finset.sum_congr rfl h3, ← Finset.sum_div, div_div]
  norm_cast

unseal Rat.add Rat.mul Rat.inv Rat.sub in
/-- C3 counterexample: with `r = 1` the window size passed to the passes is
`1`, so `boxFilter` is the identity; the claim's `2r+1 = 3`-sided centred
window mean would give `9/4` at the corner of this image (four in-bounds
samples of the claimed window, weight `(r+1)² = 4`), but the code returns
`9` unchanged. -/
theorem C3_boxFilter_r1_identity :
    (boxFilter ⟨3, 3, [9, 0, 0, 0, 0, 0, 0, 0, 0]⟩ 1).data =
      [9, 0, 0, 0, 0, 0, 0, 0, 0] ∧ ((9 : ℚ) + 0 + 0 + 0) / 4 ≠ 9 := by
  constructor
  · decide
  · norm_num

unseal Rat.add Rat.mul Rat.inv Rat.sub in
/-- C3 witness: a concrete mean with `r = 2` on a 3×1 image. -/
theorem C3_boxFilter_window_size_r_witness :
    (boxFilter ⟨3, 1, [1, 2, 3]⟩ 2).data.getD 0 0 = 3 / 2 := by
  have h := (C3_boxFilter_window_size_r ⟨3, 1, [1, 2, 3]⟩ 2 (by decide)
    (x := 0) (y := 0) (by decide) (by decide)).1
  exact h.trans (by decide)

/-! ## Claim C4: box filter of a constant image -/

theorem getD_replicate_lt {α : Type} (c d : α) {q n : ℕ} (h : q < n) :
    (List.replicate n c).getD q d = c := by
  rw [List.getD_eq_getElem _ _ (by simpa using h), List.getElem_replicate]

theorem flatten_replicate_replicate {α : Type} (c : α) (W : ℕ) :
    ∀ H : ℕ, (List.replicate H (List.replicate W c)).flatten = List.replicate (H * W) c := by
  intro H
  induction H with
  | zero => simp
  | succ H ih =>
    rw [List.replicate_succ, List.flatten_cons, ih, Nat.succ_mul, Nat.add_comm,
      List.replicate_add]

/-- The 1D pass preserves constant rows (window size ≥ 1). -/
theorem boxPass1D_const (n : ℕ) (c : ℚ) (w : ℕ) (hw : 1 ≤ w) :
    boxPass1D (List.replicate n c) w = List.replicate n c := by
  rw [boxPass1D_spec _ _ hw, List.length_replicate]
  have h : ∀ p ∈ List.range n, outVal (fun q => (List.replicate n c).getD q 0) n w p = c := by
    intro p hp
    rw [List.mem_range] at hp
    rw [outVal, preSum_eq_winSet_sum]
    have hsum : ∑ q ∈ winSet n w (p + w / 2), (List.replicate n c).getD q 0 =
        ((preW n w (p + w / 2 + 1) : ℕ) : ℚ) * c := by
      rw [preW_eq_card]
      rw [Finset.sum_congr rfl fun q hq => getD_replicate_lt c 0
        (by simpa using (Finset.mem_filter.mp hq).1)]
      rw [Finset.sum_const, nsmul_eq_mul]
    rw [hsum]
    have hpos := preW_pos n w (p + w / 2) hw (by omega) (by omega)
    have hne : ((preW n w (p + w / 2 + 1) : ℕ) : ℚ) ≠ 0 := by
      exact_mod_cast hpos.ne'
    exact mul_div_cancel_left₀ c hne
  rw [List.map_congr_left h, List.map_const', List.length_range]

theorem imgRow_const (W H : ℕ) (c : ℚ) {y : ℕ} (hy : y < H) :
    imgRow ⟨W, H, List.replicate (W * H) c⟩ y = List.replicate W c := by
  rw [imgRow]
  have h : ∀ x ∈ List.range W,
      (List.replicate (W * H) c).getD (y * W + x) 0 = c := by
    intro x hx
    rw [List.mem_range] at hx
    refine getD_replicate_lt c 0 ?_
    calc y * W + x < y * W + W := by omega
    _ = (y + 1) * W := by ring
    _ ≤ H * W := Nat.mul_le_mul_right W hy
    _ = W * H := Nat.mul_comm H W
  rw [List.map_congr_left h, List.map_const', List.length_range]

theorem imgCol_const (W H : ℕ) (c : ℚ) {x : ℕ} (hx : x < W) :
    imgCol ⟨W, H, List.replicate (W * H) c⟩ x = List.replicate H c := by
  rw [imgCol]
  have h : ∀ y ∈ List.range H,
      (List.replicate (W * H) c).getD (y * W + x) 0 = c := by
    intro y hy
    rw [List.mem_range] at hy
    refine getD_replicate_lt c 0 ?_
    calc y * W + x < y * W + W := by omega
    _ = (y + 1) * W := by ring
    _ ≤ H * W := Nat.mul_le_mul_right W hy
    _ = W * H := Nat.mul_comm H W
  rw [List.map_congr_left h, List.map_const', List.length_range]

theorem boxFilterPassH_const (W H : ℕ) (c : ℚ) (w : ℕ) (hw : 1 ≤ w) :
    boxFilterPassH ⟨W, H, List.replicate (W * H) c⟩ w =
      ⟨W, H, List.replicate (W * H) c⟩ := by
  rw [boxFilterPassH]
  refine congrArg (BaseImage.mk W H) ?_
  have h : ∀ y ∈ List.range H,
      boxPass1D (imgRow ⟨W, H, List.replicate (W * H) c⟩ y) w = List.replicate W c := by
    intro y hy
    rw [List.mem_range] at hy
    rw [imgRow_const W H c hy, boxPass1D_const W c w hw]
  rw [List.map_congr_left h, List.map_const', List.length_range,
    flatten_replicate_replicate, Nat.mul_comm]

theorem boxFilterPassV_const (W H : ℕ) (c : ℚ) (w : ℕ) (hw : 1 ≤ w) :
    boxFilterPassV ⟨W, H, List.replicate (W * H) c⟩ w =
      ⟨W, H, List.replicate (W * H) c⟩ := by
  rw [boxFilterPassV]
  refine congrArg (BaseImage.mk W H) ?_
  rw [List.flatMap_def]
  have h : ∀ y ∈ List.range H,
      ((List.range W).map fun x =>
        (boxPass1D (imgCol ⟨W, H, List.replicate (W * H) c⟩ x) w).getD y 0) =
      List.replicate W c := by
    intro y hy
    rw [List.mem_range] at hy
    have h2 : ∀ x ∈ List.range W,
        (boxPass1D (imgCol ⟨W, H, List.replicate (W * H) c⟩ x) w).getD y 0 = c := by
      intro x hx
      rw [List.mem_range] at hx
      rw [imgCol_const W H c hx, boxPass1D_const H c w hw, getD_replicate_lt c 0 hy]
    rw [List.map_congr_left h2, List.map_const', List.length_range]
  rw [List.map_congr_left h, List.map_const', List.length_range,
    flatten_replicate_replicate, Nat.mul_comm]

theorem boxFilter_const_eq (W H : ℕ) (c : ℚ) (r : ℕ) (hr : 1 ≤ r) :
    boxFilter ⟨W, H, List.replicate (W * H) c⟩ r = ⟨W, H, List.replicate (W * H) c⟩ := by
  rw [boxFilter, boxFilterPassH_const W H c r hr, boxFilterPassV_const W H c r hr]

/-- C4 (amended): for every constant-valued image and every radius `r ≥ 1`,
`boxFilter` returns the image unchanged (the weight is never zero because
the window of size `r ≥ 1` always contains the centre pixel). With `r = 0`
the claim fails: every window is empty and the pass divides 0 by 0 (see the
counterexample). -/
theorem C4_boxFilter_const (W H : ℕ) (c : ℚ) (r : ℕ) (hr : 1 ≤ r) :
    boxFilter ⟨W, H, List.replicate (W * H) c⟩ r = ⟨W, H, List.replicate (W * H) c⟩ :=
  boxFilter_const_eq W H c r hr

unseal Rat.add Rat.mul Rat.inv Rat.sub in
/-- C4 counterexample: at radius `0` the window size passed to the passes is
`0`, the weight stays `0`, and the output of the constant 1×1 image `[1]` is
`0/0` (`NaN` in the C++ float semantics, `0` in the exact model) — not the
constant `1` the claim requires for every radius ≥ 0. -/
theorem C4_boxFilter_r0_breaks :
    boxFilter ⟨1, 1, [(1 : ℚ)]⟩ 0 = ⟨1, 1, [0]⟩ ∧ (0 : ℚ) ≠ 1 := by
  constructor
  · decide
  · norm_num

/-- C4 witness: a concrete 2×2 constant image at radius 1. -/
theorem C4_boxFilter_const_witness :
    boxFilter ⟨2, 2, List.replicate 4 (5 : ℚ)⟩ 1 = ⟨2, 2, List.replicate 4 (5 : ℚ)⟩ :=
  C4_boxFilter_const 2 2 5 1 (by decide)

/-! ## Haze removal (`haze_removal.cpp` `removeHaze`)

Modelling notes for `removeHaze`:
* `std::exp` (on `float`) is an external library routine; it is modelled by a
  function parameter `expf : ℚ → ℚ`. Facts about it (e.g. `expf 0 = 1`) are
  hypotheses where claims need them.
* `std::nth_element` produces an unspecified permutation of the coordinate
  vector subject to its partial-ordering postcondition; the permuted vector
  is modelled by the parameter `sel`, and theorems assume the postcondition.
* The dimension `assert` (disabled under NDEBUG) is a hypothesis in theorems.
-/

/-- The `A`-selection loop of `removeHaze` (`haze_removal.cpp` lines 109–113):
fold over the first `nHighest` coordinates, replacing `A` whenever the pixel
has strictly higher luminance, starting from the default pixel `(0,0,0)`. -/
def estimateA (inImg : ImageRgb) (cands : List Coord) : Pixel :=
  cands.foldl (fun A c =>
    if A.getLuminance < (inImg.get c).getLuminance then inImg.get c else A) ⟨0, 0, 0⟩

/-- Transmission `t = std::max(0.1f, std::min(0.9f, std::exp(-beta * d)))`. -/
def transmission (expf : ℚ → ℚ) (beta d : ℚ) : ℚ :=
  max (1 / 10) (min (9 / 10) (expf (-beta * d)))

/-- `haze_removal.cpp` `removeHaze`: `nHighest = depth.data().size() / 1000`
(integer division, no lower bound), `A` from the first `nHighest` entries of
the partially sorted coordinate list, then per index
`out[i] = A + (in[i] - A) / t` over the `width*height` output pixels. -/
def removeHaze (expf : ℚ → ℚ) (sel : List Coord) (inImg : ImageRgb)
    (depth : ImageGrey) (beta : ℚ) : ImageRgb :=
  let nHighest : ℕ := depth.data.length / 1000
  let A := estimateA inImg (sel.take nHighest)
  ⟨inImg.width, inImg.height,
    (List.range (inImg.width * inImg.height)).map fun i =>
      A + (inImg.data.getD i default - A) /
        transmission expf beta (depth.data.getD i 0)⟩

/-- C2: per output pixel `i`, `removeHaze` returns exactly
`J = A + (I - A)/t` (independently per channel, with no clamping of the
result), where `t = exp(-beta*d)` clamped into `[0.1, 0.9]`; the clamped `t`
always lies in `[1/10, 9/10]`; and when `beta = 0` (with `exp 0 = 1`) the
clamp makes `t = 9/10` at every pixel, so `J = A + (I - A)/(9/10)`. -/
theorem C2_removeHaze_formula (expf : ℚ → ℚ) (sel : List Coord) (inImg : ImageRgb)
    (depth : ImageGrey) (beta : ℚ) (i : ℕ) (hi : i < inImg.width * inImg.height) :
    (removeHaze expf sel inImg depth beta).data.getD i default =
      estimateA inImg (sel.take (depth.data.length / 1000)) +
        (inImg.data.getD i default -
          estimateA inImg (sel.take (depth.data.length / 1000))) /
          transmission expf beta (depth.data.getD i 0) ∧
    1 / 10 ≤ transmission expf beta (depth.data.getD i 0) ∧
    transmission expf beta (depth.data.getD i 0) ≤ 9 / 10 ∧
    (beta = 0 → expf 0 = 1 →
      transmission expf beta (depth.data.getD i 0) = 9 / 10 ∧
      (removeHaze expf sel inImg depth beta).data.getD i default =
        estimateA inImg (sel.take (depth.data.length / 1000)) +
          (inImg.data.getD i default -
            estimateA inImg (sel.take (depth.data.length / 1000))) / ((9 : ℚ) / 10)) := by
  have hval : (removeHaze expf sel inImg depth beta).data.getD i default =
      estimateA inImg (sel.take (depth.data.length / 1000)) +
        (inImg.data.getD i default -
          estimateA inImg (sel.take (depth.data.length / 1000))) /
          transmission expf beta (depth.data.getD i 0) := by
    show ((List.range (inImg.width * inImg.height)).map fun j =>
      estimateA inImg (sel.take (depth.data.length / 1000)) +
        (inImg.data.getD j default -
          estimateA inImg (sel.take (depth.data.length / 1000))) /
          transmission expf beta (depth.data.getD j 0)).getD i default = _
    rw [getD_map_range _ hi]
  have ht0 : beta = 0 → expf 0 = 1 →
      transmission expf beta (depth.data.getD i 0) = 9 / 10 := by
    intro hb he
    rw [transmission, hb, neg_zero, zero_mul, he]
    norm_num
  refine ⟨hval, le_max_left _ _, max_le (by norm_num) (min_le_left _ _), fun hb he =>
    ⟨ht0 hb he, ?_⟩⟩
  rw [hval, ht0 hb he]

unseal Rat.add Rat.mul Rat.inv Rat.sub in
/-- C2 witness: a 1×1 white image with zero depth and `beta = 0` (under any
exp with `exp 0 = 1`): `A` is the default black pixel and the output is
`(1 - 0)/(9/10) = 10/9` per channel. -/
theorem C2_removeHaze_formula_witness :
    (removeHaze (fun _ => 1) [] ⟨1, 1, [⟨1, 1, 1⟩]⟩ ⟨1, 1, [0]⟩ 0).data.getD 0 default =
      ⟨10 / 9, 10 / 9, 10 / 9⟩ := by
  have h := (C2_removeHaze_formula (fun _ => 1) [] ⟨1, 1, [⟨1, 1, 1⟩]⟩ ⟨1, 1, [0]⟩ 0 0
    (by decide)).2.2.2 rfl rfl
  exact h.2.trans (by decide)

/-! ## Claim C1: atmospheric-light estimation -/

/-- The whole-image view has exactly `width*height` coordinates. -/
theorem fullView_rect_length {α : Type} (img : BaseImage α) :
    img.fullView.rect.length = img.width * img.height := by
  rw [ImageView.rect_length]
  have hw : img.fullView.width = (img.width : ℤ) := by
    show clamp 0 ((img.width : ℤ) - 0) (img.width : ℤ) = (img.width : ℤ)
    rw [clamp]
    omega
  have hh : img.fullView.height = (img.height : ℤ) := by
    show clamp 0 ((img.height : ℤ) - 0) (img.height : ℤ) = (img.height : ℤ)
    rw [clamp]
    omega
  rw [hw, hh, Int.toNat_natCast, Int.toNat_natCast]

/-- The max-luminance fold of `estimateA`: the result is the initial pixel or
one of the scanned pixels, and its luminance dominates the initial pixel's
and every scanned pixel's. -/
theorem estimateA_fold (inImg : ImageRgb) :
    ∀ (cands : List Coord) (A0 : Pixel),
    (cands.foldl (fun A c =>
        if A.getLuminance < (inImg.get c).getLuminance then inImg.get c else A) A0 = A0 ∨
      ∃ c ∈ cands, cands.foldl (fun A c =>
        if A.getLuminance < (inImg.get c).getLuminance then inImg.get c else A) A0 =
          inImg.get c) ∧
    (∀ c ∈ cands, (inImg.get c).getLuminance ≤
      (cands.foldl (fun A c =>
        if A.getLuminance < (inImg.get c).getLuminance then inImg.get c else A)
          A0).getLuminance) ∧
    A0.getLuminance ≤ (cands.foldl (fun A c =>
      if A.getLuminance < (inImg.get c).getLuminance then inImg.get c else A)
        A0).getLuminance := by
  intro cands
  induction cands with
  | nil => exact fun A0 => ⟨Or.inl rfl, fun c hc => absurd hc (List.not_mem_nil c), le_refl _⟩
  | cons c0 cs ih =>
    intro A0
    simp only [List.foldl_cons]
    set A1 := if A0.getLuminance < (inImg.get c0).getLuminance then inImg.get c0 else A0
      with hA1
    obtain ⟨hmem, hbound, hinit⟩ := ih A1
    have hA1cases : A1 = inImg.get c0 ∨ A1 = A0 := by
      rw [hA1]
      by_cases h : A0.getLuminance < (inImg.get c0).getLuminance
      · rw [if_pos h]
        exact Or.inl rfl
      · rw [if_neg h]
        exact Or.inr rfl
    have hA1lum : (inImg.get c0).getLuminance ≤ A1.getLuminance ∧
        A0.getLuminance ≤ A1.getLuminance := by
      rw [hA1]
      by_cases h : A0.getLuminance < (inImg.get c0).getLuminance
      · rw [if_pos h]
        exact ⟨le_refl _, h.le⟩
      · rw [if_neg h]
        exact ⟨not_lt.mp h, le_refl _⟩
    refine ⟨?_, ?_, le_trans hA1lum.2 hinit⟩
    · rcases hmem with h | ⟨c, hc, hce⟩
      · rcases hA1cases with h2 | h2
        · exact Or.inr ⟨c0, List.mem_cons_self c0 cs, h.trans h2⟩
        · exact Or.inl (h.trans h2)
      · exact Or.inr ⟨c, List.mem_cons_of_mem c0 hc, hce⟩
    · intro c hc
      rcases List.mem_cons.mp hc with rfl | hc2
      · exact le_trans hA1lum.1 hinit
      · exact hbound c hc2

/-- C1 (amended): `removeHaze` selects exactly `⌊pixelCount/1000⌋` candidate
coordinates — possibly zero for images with fewer than 1000 pixels, in which
case `A` remains the default black pixel `(0,0,0)`. Under `std::nth_element`'s
postcondition (`sel` permutes all coordinates with the first `nHighest`
having the highest depths), every candidate's depth dominates every
non-candidate's, `A`'s luminance dominates every candidate's luminance, and
`A` is either a candidate's colour or the default pixel (the fold starts at
the default and only replaces it on strictly higher luminance). -/
theorem C1_atmospheric_light (inImg : ImageRgb) (depth : ImageGrey)
    (sel : List Coord)
    (hwf : depth.data.length = depth.width * depth.height)
    (hperm : sel.Perm depth.fullView.rect)
    (hpart : ∀ i j : ℕ, i < depth.data.length / 1000 →
      depth.data.length / 1000 ≤ j → j < sel.length →
      depth.get (sel.getD j ⟨0, 0⟩) ≤ depth.get (sel.getD i ⟨0, 0⟩)) :
    (sel.take (depth.data.length / 1000)).length = depth.data.length / 1000 ∧
    (∀ c ∈ sel.take (depth.data.length / 1000),
      ∀ c2 ∈ sel.drop (depth.data.length / 1000), depth.get c2 ≤ depth.get c) ∧
    (∀ c ∈ sel.take (depth.data.length / 1000),
      (inImg.get c).getLuminance ≤
        (estimateA inImg (sel.take (depth.data.length / 1000))).getLuminance) ∧
    (estimateA inImg (sel.take (depth.data.length / 1000)) = ⟨0, 0, 0⟩ ∨
      ∃ c ∈ sel.take (depth.data.length / 1000),
        estimateA inImg (sel.take (depth.data.length / 1000)) = inImg.get c) ∧
    (depth.data.length < 1000 →
      estimateA inImg (sel.take (depth.data.length / 1000)) = ⟨0, 0, 0⟩) := by
  have hlen : sel.length = depth.data.length := by
    rw [hperm.length_eq, fullView_rect_length, hwf]
  have hfold := estimateA_fold inImg (sel.take (depth.data.length / 1000)) ⟨0, 0, 0⟩
  refine ⟨?_, ?_, hfold.2.1, hfold.1, ?_⟩
  · rw [List.length_take, hlen]
    exact Nat.min_eq_left (Nat.div_le_self _ _)
  · intro c hc c2 hc2
    obtain ⟨i, hi, hci⟩ := List.mem_iff_getElem.mp hc
    obtain ⟨k, hk, hck⟩ := List.mem_iff_getElem.mp hc2
    rw [List.length_take] at hi
    rw [List.length_drop] at hk
    have hi2 : i < depth.data.length / 1000 := lt_of_lt_of_le hi (Nat.min_le_left _ _)
    have hisel : i < sel.length := by omega
    have hjsel : depth.data.length / 1000 + k < sel.length := by omega
    have hci2 : sel.getD i ⟨0, 0⟩ = c := by
      rw [List.getD_eq_getElem sel _ hisel, ← hci, List.getElem_take]
    have hck2 : sel.getD (depth.data.length / 1000 + k) ⟨0, 0⟩ = c2 := by
      rw [List.getD_eq_getElem sel _ hjsel, ← hck, List.getElem_drop]
    rw [← hci2, ← hck2]
    exact hpart i (depth.data.length / 1000 + k) hi2 (by omega) hjsel
  · intro hsmall
    have h0 : depth.data.length / 1000 = 0 := Nat.div_eq_of_lt hsmall
    rw [h0, List.take_zero]
    rfl

unseal Rat.add Rat.mul Rat.inv Rat.sub in
/-- C1 counterexample: a 1×1 image (1 pixel) gives `nHighest = 1/1000 = 0` —
no candidates at all, falsifying "never fewer than one pixel": `A` stays the
default black pixel, and `removeHaze` at `beta = 0` outputs `(1-0)/(9/10) =
10/9` per channel, not the `(1,1,1)` the claim predicts for `A` equal to the
sole pixel's colour (the only admissible `nth_element` outcome is the
singleton coordinate list). -/
theorem C1_small_image_zero_candidates :
    (removeHaze (fun _ => 1) [⟨0, 0⟩] ⟨1, 1, [⟨1, 1, 1⟩]⟩ ⟨1, 1, [1]⟩ 0).data =
      [⟨10 / 9, 10 / 9, 10 / 9⟩] ∧
    estimateA ⟨1, 1, [⟨1, 1, 1⟩]⟩ ([(⟨0, 0⟩ : Coord)].take (1 / 1000)) = ⟨0, 0, 0⟩ ∧
    (⟨10 / 9, 10 / 9, 10 / 9⟩ : Pixel) ≠ ⟨1, 1, 1⟩ := by
  refine ⟨by decide, rfl, by decide⟩

/-- C1 witness: a concrete 2×2 image; the identity permutation satisfies the
`nth_element` postcondition vacuously (`nHighest = 0`) and `A` is the default
pixel. -/
theorem C1_atmospheric_light_witness :
    estimateA ⟨2, 2, [⟨1, 0, 0⟩, ⟨0, 1, 0⟩, ⟨0, 0, 1⟩, ⟨1, 1, 1⟩]⟩
      (([⟨0, 0⟩, ⟨1, 0⟩, ⟨0, 1⟩, ⟨1, 1⟩] : List Coord).take
        ((⟨2, 2, [1, 2, 3, 4]⟩ : ImageGrey).data.length / 1000)) = ⟨0, 0, 0⟩ := by
  have h := C1_atmospheric_light ⟨2, 2, [⟨1, 0, 0⟩, ⟨0, 1, 0⟩, ⟨0, 0, 1⟩, ⟨1, 1, 1⟩]⟩
    ⟨2, 2, [1, 2, 3, 4]⟩ [⟨0, 0⟩, ⟨1, 0⟩, ⟨0, 1⟩, ⟨1, 1⟩] (by decide) (by decide)
    (fun i j hi _ _ => by simp at hi)
  exact h.2.2.2.2 (by decide)

/-! ## Depth estimation (`haze_removal.cpp` `getDepthFromHazyImage`) and
normalisation (`filters.h` `normalise`) -/

/-- Colour-attenuation prior coefficients `theta[] = {0.121779f, 0.959710f,
-0.780245f}`, as exact fractions. -/
def theta0 : ℚ := 121779 / 1000000

def theta1 : ℚ := 959710 / 1000000

def theta2 : ℚ := -780245 / 1000000

/-- Phase 1 of `getDepthFromHazyImage`: per coordinate of the full view (in
row-major iteration order, which writes each row-major data index exactly
once), `clamp(theta[0] + lum*theta[1] + sat*theta[2], 0, 1)`. -/
def rawDepth (inImg : ImageRgb) : ImageGrey :=
  ⟨inImg.width, inImg.height,
    inImg.fullView.rect.map fun coord =>
      clamp (theta0 + (inImg.get coord).getLuminance * theta1 +
        (inImg.get coord).getSaturation * theta2) 0 1⟩

/-- Phase 2 of `getDepthFromHazyImage`: for every coordinate of the full
view, fold `std::min` starting from `1.0f` over the (border-clamped) reads of
the copied buffer at the coordinates of
`view.centredSubView(coord, kernelSize, kernelSize)`. -/
def minFilter (tmpImg : ImageGrey) (kernelSize : ℕ) : ImageGrey :=
  ⟨tmpImg.width, tmpImg.height,
    tmpImg.fullView.rect.map fun coord =>
      (((tmpImg.fullView.centredSubView coord kernelSize kernelSize).rect).map
        fun subCoord => tmpImg.get subCoord).foldl min 1⟩

/-- `std::numeric_limits<float>::max() = (2 - 2^-23)·2^127`. -/
def floatMax : ℚ := 2 ^ 128 - 2 ^ 104

/-- `std::numeric_limits<float>::min()` — the smallest POSITIVE normal float
`2^-126`, not the most negative float. `normalise` initialises its running
maximum with this value. -/
def floatMinPos : ℚ := 1 / 2 ^ 126

/-- `filters.h` `normalise`: running min/max over the data (min starting from
`::max()`, max starting from `::min()` — the latter is positive), then map
`p ↦ (p - min) / (max - min)` in place. -/
def normalise (img : ImageGrey) : ImageGrey :=
  let mn := img.data.foldl min floatMax
  let mx := img.data.foldl max floatMinPos
  ⟨img.width, img.height, img.data.map fun p => (p - mn) / (mx - mn)⟩

/-- `getDepthFromHazyImage`: prior, then min-filter (on a copy), then
normalise. -/
def getDepthFromHazyImage (inImg : ImageRgb) (kernelSize : ℕ) : ImageGrey :=
  normalise (minFilter (rawDepth inImg) kernelSize)

/-! ## Claim C6: normalisation endpoints -/

/-- Auxiliary saturation value: chosen so that a pixel with luminance 1 and
this saturation has raw prior depth exactly `2^-127` (a positive value below
`std::numeric_limits<float>::min() = 2^-126`). -/
def satC6 : ℚ := (1081489 / 1000000 - 1 / 2 ^ 127) * (1000000 / 780245)

/-- Pixel with channels `r > g > b ≥ 0`, luminance exactly 1 and saturation
exactly `satC6`, hence raw prior depth exactly `2^-127`. -/
def pixC6 : Pixel :=
  ⟨1 / 10 + satC6,
    (1 - 2126 / 10000 * (1 / 10 + satC6) - 722 / 10000 * (1 / 10)) / (7152 / 10000),
    1 / 10⟩

/-- Pure red pixel: raw prior depth is negative, clamped to 0. -/
def pixRed : Pixel := ⟨1, 0, 0⟩

set_option maxRecDepth 8000 in
unseal Rat.add Rat.mul Rat.inv Rat.sub in
/-- C6 (code_bug evidence): `normalise` initialises its running maximum with
`std::numeric_limits<float>::min()` — the smallest POSITIVE float `2^-126` —
instead of `lowest()`. On this 2×1 image the pre-normalised depth map is
`[2^-127, 0]` (two distinct values), so the documented normalisation
("highest value becomes 1.0f") should map index 0 to exactly `1.0`; the code
divides by `max(2^-126, 2^-127) - 0 = 2^-126` and returns `1/2` there
instead. Every output is still within `[0,1]` and the minimum maps to `0`. -/
theorem C6_normalise_max_init_bug :
    (minFilter (rawDepth ⟨2, 1, [pixC6, pixRed]⟩) 1).data = [1 / 2 ^ 127, 0] ∧
    getDepthFromHazyImage ⟨2, 1, [pixC6, pixRed]⟩ 1 = ⟨2, 1, [1 / 2, 0]⟩ ∧
    ((1 : ℚ) / 2 ^ 127 ≠ 0) ∧ ((1 : ℚ) / 2 ≠ 1) := by
  refine ⟨by decide, by decide, by decide, by decide⟩

/-! ## Claim C5: the depth-estimation pipeline -/

/-- Modelled from the spec (for comparison only; the code differs): a square
min-filter whose side-`k` window centred on the pixel is CLIPPED at the image
borders, "identically to the box filter's clamped-window policy". -/
def minFilterSpec (tmpImg : ImageGrey) (k : ℕ) : ImageGrey :=
  ⟨tmpImg.width, tmpImg.height,
    tmpImg.fullView.rect.map fun coord =>
      ((((List.range tmpImg.height).filter fun y2 =>
          coord.y - (k : ℤ) / 2 ≤ (y2 : ℤ) ∧ (y2 : ℤ) ≤ coord.y + ((k : ℤ) - 1 - (k : ℤ) / 2)).flatMap
        fun y2 => ((List.range tmpImg.width).filter fun x2 =>
          coord.x - (k : ℤ) / 2 ≤ (x2 : ℤ) ∧ (x2 : ℤ) ≤ coord.x + ((k : ℤ) - 1 - (k : ℤ) / 2)).map
        fun x2 => (⟨x2, y2⟩ : Coord)).map fun subCoord => tmpImg.get subCoord).foldl min 1⟩

/-- The 5×1 greyscale counterexample image `[0.5, 0.5, 0, 0.5, 0.5]`. -/
def imgC5 : ImageRgb :=
  ⟨5, 1, [⟨1/2, 1/2, 1/2⟩, ⟨1/2, 1/2, 1/2⟩, ⟨0, 0, 0⟩, ⟨1/2, 1/2, 1/2⟩, ⟨1/2, 1/2, 1/2⟩]⟩

set_option maxRecDepth 8000 in
unseal Rat.add Rat.mul Rat.inv Rat.sub in
/-- C5 counterexample: with kernel size 3, the code's min-filter window at
pixel 0 is the SHIFTED window `{0,1,2}` (top-left corner floored at 0, full
side kept), whose minimum is the low depth at pixel 2 — whereas the claim's
border-CLIPPED centred window `{0,1}` misses it. After normalisation the code
returns `[0,0,0,0,1]` while the claim's window policy predicts
`[1,0,0,0,1]`. -/
theorem C5_min_filter_window_shifted :
    getDepthFromHazyImage imgC5 3 = ⟨5, 1, [0, 0, 0, 0, 1]⟩ ∧
    normalise (minFilterSpec (rawDepth imgC5) 3) = ⟨5, 1, [1, 0, 0, 0, 1]⟩ ∧
    ((0 : ℚ) ≠ 1) := by
  refine ⟨by decide, by decide, by decide⟩

theorem rowmajor_lt {W H x y : ℕ} (hx : x < W) (hy : y < H) : y * W + x < W * H := by
  calc y * W + x < y * W + W := by omega
  _ = (y + 1) * W := by ring
  _ ≤ H * W := Nat.mul_le_mul_right W hy
  _ = W * H := Nat.mul_comm H W

theorem getD_map {α β : Type} (f : α → β) (l : List α) {i : ℕ} (h : i < l.length)
    (d : β) (d2 : α) : (l.map f).getD i d = f (l.getD i d2) := by
  rw [List.getD_eq_getElem _ _ (by simpa using h), List.getElem_map,
    List.getD_eq_getElem _ _ h]

theorem BaseImage.fullView_width {α : Type} (img : BaseImage α) :
    img.fullView.width = (img.width : ℤ) := by
  show clamp 0 ((img.width : ℤ) - 0) (img.width : ℤ) = (img.width : ℤ)
  rw [clamp]
  omega

theorem BaseImage.fullView_height {α : Type} (img : BaseImage α) :
    img.fullView.height = (img.height : ℤ) := by
  show clamp 0 ((img.height : ℤ) - 0) (img.height : ℤ) = (img.height : ℤ)
  rw [clamp]
  omega

/-- Indexing the full view's row-major coordinate list. -/
theorem fullView_rect_getD {α : Type} (img : BaseImage α) {x y : ℕ}
    (hx : x < img.width) (hy : y < img.height) :
    img.fullView.rect.getD (y * img.width + x) ⟨0, 0⟩ = ⟨x, y⟩ := by
  have hwt : img.fullView.width.toNat = img.width := by
    rw [img.fullView_width, Int.toNat_natCast]
  have hht : img.fullView.height.toNat = img.height := by
    rw [img.fullView_height, Int.toNat_natCast]
  rw [ImageView.rect, List.flatMap_def]
  have hrows : ∀ l ∈ (List.range img.fullView.height.toNat).map fun yy : ℕ =>
      (List.range img.fullView.width.toNat).map
        fun xx : ℕ => img.fullView.offset + (⟨(xx : ℤ), (yy : ℤ)⟩ : Coord),
      l.length = img.width := by
    intro l hl
    rw [List.mem_map] at hl
    obtain ⟨yy, _, rfl⟩ := hl
    rw [List.length_map, List.length_range, hwt]
  rw [flatten_getD _ hrows y x
    (by rw [List.length_map, List.length_range, hht]; exact hy) hx ⟨0, 0⟩,
    getD_map_range _ (show y < img.fullView.height.toNat by rw [hht]; exact hy),
    getD_map_range _ (show x < img.fullView.width.toNat by rw [hwt]; exact hx)]
  have hoff : img.fullView.offset = ⟨0, 0⟩ := rfl
  rw [hoff, Coord.add_def]
  simp

/-- Clamped access at an in-bounds coordinate is plain row-major access. -/
theorem BaseImage.get_inBounds {α : Type} [Inhabited α] (img : BaseImage α) {x y : ℕ}
    (hx : x < img.width) (hy : y < img.height) :
    img.get ⟨x, y⟩ = img.data.getD (y * img.width + x) default := by
  rw [BaseImage.get]
  have hidx : img.getIndex ⟨x, y⟩ = y * img.width + x := by
    rw [BaseImage.getIndex]
    have h1 : clamp ((x : ℕ) : ℤ) 0 ((img.width : ℤ) - 1) = (x : ℤ) := by
      rw [clamp]
      omega
    have h2 : clamp ((y : ℕ) : ℤ) 0 ((img.height : ℤ) - 1) = (y : ℤ) := by
      rw [clamp]
      omega
    show (clamp ((y : ℕ) : ℤ) 0 ((img.height : ℤ) - 1) * img.width +
      clamp ((x : ℕ) : ℤ) 0 ((img.width : ℤ) - 1)).toNat = y * img.width + x
    rw [h1, h2]
    have h3 : (y : ℤ) * (img.width : ℤ) + (x : ℤ) =
        ((y * img.width + x : ℕ) : ℤ) := by
      push_cast
      ring
    rw [h3, Int.toNat_natCast]
  rw [hidx]

/-- Every clamped read of the prior image is a `[0,1]`-clamped value. -/
theorem rawDepth_get_le_one (inImg : ImageRgb) (c : Coord) :
    (rawDepth inImg).get c ≤ 1 := by
  have hdata : ∀ v ∈ (rawDepth inImg).data, v ≤ 1 := by
    intro v hv
    rw [rawDepth] at hv
    simp only [List.mem_map] at hv
    obtain ⟨c2, _, rfl⟩ := hv
    exact min_le_right _ _
  rw [BaseImage.get]
  by_cases hidx : (rawDepth inImg).getIndex c < (rawDepth inImg).data.length
  · rw [List.getD_eq_getElem _ _ hidx]
    exact hdata _ (List.getElem_mem hidx)
  · rw [List.getD_eq_default _ _ (le_of_not_lt hidx)]
    show (0 : ℚ) ≤ 1
    norm_num

/-- Minimum-fold characterisation: the fold is the initial value or a list
element, bounds every element, and is bounded by the initial value. -/
theorem foldl_min_spec : ∀ (l : List ℚ) (a : ℚ),
    (l.foldl min a = a ∨ l.foldl min a ∈ l) ∧
    (∀ v ∈ l, l.foldl min a ≤ v) ∧ l.foldl min a ≤ a := by
  intro l
  induction l with
  | nil => exact fun a => ⟨Or.inl rfl, fun v hv => absurd hv (List.not_mem_nil v), le_refl a⟩
  | cons v0 vs ih =>
    intro a
    simp only [List.foldl_cons]
    obtain ⟨hmem, hb, hin⟩ := ih (min a v0)
    refine ⟨?_, ?_, le_trans hin (min_le_left a v0)⟩
    · rcases hmem with h | h
      · by_cases hc : a ≤ v0
        · exact Or.inl (h.trans (min_eq_left hc))
        · refine Or.inr ?_
          rw [h.trans (min_eq_right (le_of_not_le hc))]
          exact List.mem_cons_self v0 vs
      · exact Or.inr (List.mem_cons_of_mem v0 h)
    · intro v hv
      rcases List.mem_cons.mp hv with rfl | hv2
      · exact le_trans hin (min_le_right a v)
      · exact hb v hv2

/-- The centred sub-view of the full view: offset floored at `(0,0)`
componentwise, full `k×k` extent kept (not clamped to the image). -/
theorem ImageView.centredSubView_eq (v : ImageView) (c : Coord) (w h : ℤ) :
    v.centredSubView c w h =
      ⟨⟨max 0 (v.offset.x + (c.x - Int.tdiv w 2)),
        max 0 (v.offset.y + (c.y - Int.tdiv h 2))⟩, w, h⟩ := rfl

theorem fullView_centredSubView {α : Type} (img : BaseImage α) (x y k : ℕ) :
    img.fullView.centredSubView ⟨x, y⟩ k k =
      ⟨⟨((x - k / 2 : ℕ) : ℤ), ((y - k / 2 : ℕ) : ℤ)⟩, k, k⟩ := by
  rw [ImageView.centredSubView_eq]
  have h1 : img.fullView.offset.x = 0 := rfl
  have h2 : img.fullView.offset.y = 0 := rfl
  rw [h1, h2, show Int.tdiv ((k : ℕ) : ℤ) 2 = ((k / 2 : ℕ) : ℤ) from rfl]
  refine congrArg (fun c : Coord => ImageView.mk c k k) ?_
  refine congrArg₂ Coord.mk ?_ ?_ <;>
    · dsimp only
      omega

/-- The min-filter output at an in-bounds pixel: fold of `min` (from `1.0`)
over the clamped reads at the shifted `k×k` window's coordinates. -/
theorem minFilter_getD (tmpImg : ImageGrey) (k : ℕ) {x y : ℕ}
    (hx : x < tmpImg.width) (hy : y < tmpImg.height) :
    (minFilter tmpImg k).data.getD (y * tmpImg.width + x) 0 =
      (((⟨⟨((x - k / 2 : ℕ) : ℤ), ((y - k / 2 : ℕ) : ℤ)⟩, k, k⟩ : ImageView).rect).map
        fun sc => tmpImg.get sc).foldl min 1 := by
  have hidx : y * tmpImg.width + x < tmpImg.fullView.rect.length := by
    rw [fullView_rect_length]
    exact rowmajor_lt hx hy
  show (tmpImg.fullView.rect.map fun coord =>
    (((tmpImg.fullView.centredSubView coord k k).rect).map
      fun subCoord => tmpImg.get subCoord).foldl min 1).getD (y * tmpImg.width + x) 0 = _
  rw [getD_map _ _ hidx 0 ⟨0, 0⟩, fullView_rect_getD tmpImg hx hy,
    fullView_centredSubView]

/-- C5 (amended): `getDepthFromHazyImage` is `normalise ∘ minFilter ∘ prior`:
the prior is `clamp(θ0 + lum·θ1 + sat·θ2, 0, 1)` per pixel; the min-filter
replaces pixel `(x,y)` by the true minimum over the `k×k` window whose
top-left corner is `(max(0, x-⌊k/2⌋), max(0, y-⌊k/2⌋))` — the window is
SHIFTED at the left/top borders (keeping side `k`) rather than clipped, and
its coordinates are clamped to the image bounds on access, so right/bottom
overhang re-samples the border pixels; the fold's initial `1.0` never wins
because all clamped prior values are ≤ 1. -/
theorem C5_depth_pipeline (inImg : ImageRgb) (k : ℕ) (hk : 1 ≤ k) {x y : ℕ}
    (hx : x < inImg.width) (hy : y < inImg.height) :
    getDepthFromHazyImage inImg k = normalise (minFilter (rawDepth inImg) k) ∧
    (rawDepth inImg).data.getD (y * inImg.width + x) 0 =
      clamp (theta0 + (inImg.get ⟨x, y⟩).getLuminance * theta1 +
        (inImg.get ⟨x, y⟩).getSaturation * theta2) 0 1 ∧
    ((minFilter (rawDepth inImg) k).data.getD (y * inImg.width + x) 0 ∈
      (((⟨⟨((x - k / 2 : ℕ) : ℤ), ((y - k / 2 : ℕ) : ℤ)⟩, k, k⟩ : ImageView).rect).map
        fun sc => (rawDepth inImg).get sc) ∧
    (∀ v ∈ (((⟨⟨((x - k / 2 : ℕ) : ℤ), ((y - k / 2 : ℕ) : ℤ)⟩, k, k⟩ : ImageView).rect).map
        fun sc => (rawDepth inImg).get sc),
      (minFilter (rawDepth inImg) k).data.getD (y * inImg.width + x) 0 ≤ v)) := by
  have hraw : (rawDepth inImg).data.getD (y * inImg.width + x) 0 =
      clamp (theta0 + (inImg.get ⟨x, y⟩).getLuminance * theta1 +
        (inImg.get ⟨x, y⟩).getSaturation * theta2) 0 1 := by
    have hidx : y * inImg.width + x < inImg.fullView.rect.length := by
      rw [fullView_rect_length]
      exact rowmajor_lt hx hy
    show (inImg.fullView.rect.map fun coord =>
      clamp (theta0 + (inImg.get coord).getLuminance * theta1 +
        (inImg.get coord).getSaturation * theta2) 0 1).getD (y * inImg.width + x) 0 = _
    rw [getD_map _ _ hidx 0 ⟨0, 0⟩, fullView_rect_getD inImg hx hy]
  have hmf0 := minFilter_getD (rawDepth inImg) k (x := x) (y := y) hx hy
  set vals := (((⟨⟨((x - k / 2 : ℕ) : ℤ), ((y - k / 2 : ℕ) : ℤ)⟩, k, k⟩ : ImageView).rect).map
    fun sc => (rawDepth inImg).get sc) with hvals
  have hmf : (minFilter (rawDepth inImg) k).data.getD (y * inImg.width + x) 0 =
      vals.foldl min 1 := hmf0
  obtain ⟨hmem, hb, hinit⟩ := foldl_min_spec vals 1
  have hvle : ∀ v ∈ vals, v ≤ 1 := by
    intro v hv
    rw [hvals, List.mem_map] at hv
    obtain ⟨sc, _, rfl⟩ := hv
    exact rawDepth_get_le_one inImg sc
  have hne : vals ≠ [] := by
    have hlen : vals.length = k * k := by
      rw [hvals, List.length_map, ImageView.rect_length]
      show ((k : ℤ).toNat) * ((k : ℤ).toNat) = k * k
      rw [Int.toNat_natCast]
    intro hnil
    rw [hnil] at hlen
    simp at hlen
    omega
  refine ⟨rfl, hraw, ?_, ?_⟩
  · rw [hmf]
    rcases hmem with h1 | h1
    · obtain ⟨v0, hv0⟩ := List.exists_mem_of_ne_nil vals hne
      have hle : vals.foldl min 1 ≤ v0 := hb v0 hv0
      have hge : v0 ≤ vals.foldl min 1 := by
        rw [h1]
        exact hvle v0 hv0
      have : v0 = vals.foldl min 1 := le_antisymm hge hle
      rw [← this]
      exact hv0
    · exact h1
  · intro v hv
    rw [hmf]
    exact hb v hv

unseal Rat.add Rat.mul Rat.inv Rat.sub in
/-- C5 witness: the prior value at pixel 0 of the 5×1 counterexample image. -/
theorem C5_depth_pipeline_witness :
    (rawDepth imgC5).data.getD 0 0 = 601634 / 1000000 := by
  have h := (C5_depth_pipeline imgC5 3 (by decide) (x := 0) (y := 0)
    (by decide) (by decide)).2.1
  exact h.trans (by decide)

/-! ## Guided filter precomputation (`guided_filter.cpp`) -/

/-- `image.cpp` `splitChannels`: per channel, the values at the full view's
row-major coordinates. -/
def splitChannels (image : ImageRgb) : ImageGrey × ImageGrey × ImageGrey :=
  (⟨image.width, image.height, image.fullView.rect.map fun c => (image.get c).r⟩,
   ⟨image.width, image.height, image.fullView.rect.map fun c => (image.get c).g⟩,
   ⟨image.width, image.height, image.fullView.rect.map fun c => (image.get c).b⟩)

/-- Buffer `+` buffer (may throw `ImageError`). -/
def imgAdd (l r : ImageGrey) : Except ImageError ImageGrey := binaryOp l r (· + ·)

/-- Buffer `-` buffer. -/
def imgSub (l r : ImageGrey) : Except ImageError ImageGrey := binaryOp l r (· - ·)

/-- Buffer `*` buffer. -/
def imgMul (l r : ImageGrey) : Except ImageError ImageGrey := binaryOp l r (· * ·)

/-- Buffer `/` buffer. -/
def imgDiv (l r : ImageGrey) : Except ImageError ImageGrey := binaryOp l r (· / ·)

/-- Buffer `+` scalar. -/
def imgAddScalar (l : ImageGrey) (v : ℚ) : ImageGrey := scalarOp l v (· + ·)

/-- `guided_filter.cpp` `GuidedFilterValues`: the reusable guide statistics
(channels, local means, regularised covariance entries, inverse-covariance
entries). -/
structure GuidedFilterValues where
  radius : ℕ
  I0 : ImageGrey
  I1 : ImageGrey
  I2 : ImageGrey
  mean_I_r : ImageGrey
  mean_I_g : ImageGrey
  mean_I_b : ImageGrey
  var_I_rr : ImageGrey
  var_I_rg : ImageGrey
  var_I_rb : ImageGrey
  var_I_gg : ImageGrey
  var_I_gb : ImageGrey
  var_I_bb : ImageGrey
  invrr : ImageGrey
  invrg : ImageGrey
  invrb : ImageGrey
  invgg : ImageGrey
  invgb : ImageGrey
  invbb : ImageGrey
deriving DecidableEq, Repr

/-- The `GuidedFilterValues` constructor (`guided_filter.cpp` lines 53–82):
`radius = r*2+1`; means and covariance entries via `boxFilter`; `eps` added
to the three diagonal entries; cofactors; then each cofactor divided by
`covDet = invrr*var_rr + invrg*var_rg + invrb*var_rb` — with no singularity
guard: a zero `covDet` divides silently (IEEE: NaN/Inf; exact model: 0),
never an error. The `Except` layer carries only the `ImageError` the
element-wise operators can throw. -/
def mkGuidedFilterValues (guide : ImageRgb) (r : ℕ) (eps : ℚ) :
    Except ImageError GuidedFilterValues := do
  let radius := r * 2 + 1
  let (I0, I1, I2) := splitChannels guide
  let mean_I_r := boxFilter I0 radius
  let mean_I_g := boxFilter I1 radius
  let mean_I_b := boxFilter I2 radius
  let var_I_rr := imgAddScalar (← imgSub (boxFilter (← imgMul I0 I0) radius)
    (← imgMul mean_I_r mean_I_r)) eps
  let var_I_rg ← imgSub (boxFilter (← imgMul I0 I1) radius)
    (← imgMul mean_I_r mean_I_g)
  let var_I_rb ← imgSub (boxFilter (← imgMul I0 I2) radius)
    (← imgMul mean_I_r mean_I_b)
  let var_I_gg := imgAddScalar (← imgSub (boxFilter (← imgMul I1 I1) radius)
    (← imgMul mean_I_g mean_I_g)) eps
  let var_I_gb ← imgSub (boxFilter (← imgMul I1 I2) radius)
    (← imgMul mean_I_g mean_I_b)
  let var_I_bb := imgAddScalar (← imgSub (boxFilter (← imgMul I2 I2) radius)
    (← imgMul mean_I_b mean_I_b)) eps
  let invrr ← imgSub (← imgMul var_I_gg var_I_bb) (← imgMul var_I_gb var_I_gb)
  let invrg ← imgSub (← imgMul var_I_gb var_I_rb) (← imgMul var_I_rg var_I_bb)
  let invrb ← imgSub (← imgMul var_I_rg var_I_gb) (← imgMul var_I_gg var_I_rb)
  let invgg ← imgSub (← imgMul var_I_rr var_I_bb) (← imgMul var_I_rb var_I_rb)
  let invgb ← imgSub (← imgMul var_I_rb var_I_rg) (← imgMul var_I_rr var_I_gb)
  let invbb ← imgSub (← imgMul var_I_rr var_I_gg) (← imgMul var_I_rg var_I_rg)
  let covDet ← imgAdd (← imgAdd (← imgMul invrr var_I_rr) (← imgMul invrg var_I_rg))
    (← imgMul invrb var_I_rb)
  let invrr2 ← imgDiv invrr covDet
  let invrg2 ← imgDiv invrg covDet
  let invrb2 ← imgDiv invrb covDet
  let invgg2 ← imgDiv invgg covDet
  let invgb2 ← imgDiv invgb covDet
  let invbb2 ← imgDiv invbb covDet
  pure ⟨radius, I0, I1, I2, mean_I_r, mean_I_g, mean_I_b, var_I_rr, var_I_rg,
    var_I_rb, var_I_gg, var_I_gb, var_I_bb, invrr2, invrg2, invrb2, invgg2,
    invgb2, invbb2⟩

/-! ## Claim C7: degenerate inputs do not raise errors -/

theorem BaseImage.getIndex_lt {α : Type} (img : BaseImage α) (c : Coord)
    (hw : 1 ≤ img.width) (hh : 1 ≤ img.height) :
    img.getIndex c < img.width * img.height := by
  have hn := Nat.mul_pos hw hh
  have h1 : 0 ≤ clamp c.x 0 ((img.width : ℤ) - 1) ∧
      clamp c.x 0 ((img.width : ℤ) - 1) ≤ (img.width : ℤ) - 1 := by
    rw [clamp]
    omega
  have h2 : 0 ≤ clamp c.y 0 ((img.height : ℤ) - 1) ∧
      clamp c.y 0 ((img.height : ℤ) - 1) ≤ (img.height : ℤ) - 1 := by
    rw [clamp]
    omega
  show (clamp c.y 0 ((img.height : ℤ) - 1) * img.width +
    clamp c.x 0 ((img.width : ℤ) - 1)).toNat < img.width * img.height
  have hle : clamp c.y 0 ((img.height : ℤ) - 1) * (img.width : ℤ) +
      clamp c.x 0 ((img.width : ℤ) - 1) ≤
      ((img.height : ℤ) - 1) * (img.width : ℤ) + ((img.width : ℤ) - 1) :=
    add_le_add (mul_le_mul_of_nonneg_right h2.2 (by positivity)) h1.2
  have heq : ((img.height : ℤ) - 1) * (img.width : ℤ) + ((img.width : ℤ) - 1) =
      ((img.width * img.height : ℕ) : ℤ) - 1 := by
    push_cast
    ring
  omega

theorem BaseImage.get_const {α : Type} [Inhabited α] (W H : ℕ) (hW : 1 ≤ W)
    (hH : 1 ≤ H) (v : α) (c : Coord) :
    (⟨W, H, List.replicate (W * H) v⟩ : BaseImage α).get c = v := by
  rw [BaseImage.get]
  have h := BaseImage.getIndex_lt (⟨W, H, List.replicate (W * H) v⟩ : BaseImage α) c hW hH
  exact getD_replicate_lt v default h

theorem splitChannels_const (W H : ℕ) (hW : 1 ≤ W) (hH : 1 ≤ H) (p : Pixel) :
    splitChannels ⟨W, H, List.replicate (W * H) p⟩ =
      (⟨W, H, List.replicate (W * H) p.r⟩, ⟨W, H, List.replicate (W * H) p.g⟩,
        ⟨W, H, List.replicate (W * H) p.b⟩) := by
  rw [splitChannels]
  refine congrArg₂ Prod.mk ?_ (congrArg₂ Prod.mk ?_ ?_)
  · refine congrArg (BaseImage.mk W H) ?_
    have hcg : ∀ c ∈ (⟨W, H, List.replicate (W * H) p⟩ : ImageRgb).fullView.rect,
        ((⟨W, H, List.replicate (W * H) p⟩ : ImageRgb).get c).r = p.r := fun c _ => by
      rw [BaseImage.get_const W H hW hH p c]
    rw [List.map_congr_left hcg, List.map_const', fullView_rect_length]
  · refine congrArg (BaseImage.mk W H) ?_
    have hcg : ∀ c ∈ (⟨W, H, List.replicate (W * H) p⟩ : ImageRgb).fullView.rect,
        ((⟨W, H, List.replicate (W * H) p⟩ : ImageRgb).get c).g = p.g := fun c _ => by
      rw [BaseImage.get_const W H hW hH p c]
    rw [List.map_congr_left hcg, List.map_const', fullView_rect_length]
  · refine congrArg (BaseImage.mk W H) ?_
    have hcg : ∀ c ∈ (⟨W, H, List.replicate (W * H) p⟩ : ImageRgb).fullView.rect,
        ((⟨W, H, List.replicate (W * H) p⟩ : ImageRgb).get c).b = p.b := fun c _ => by
      rw [BaseImage.get_const W H hW hH p c]
    rw [List.map_congr_left hcg, List.map_const', fullView_rect_length]

/-- `binaryOp` on equal-dimension well-formed buffers succeeds with the
element-wise result. -/
theorem binaryOp_ok_eq {α : Type} [Inhabited α] (l r : BaseImage α) (op : α → α → α)
    (hw : l.width = r.width) (hh : l.height = r.height)
    (hl : l.data.length = l.width * l.height)
    (hr2 : r.data.length = r.width * r.height) :
    binaryOp l r op = Except.ok ⟨l.width, l.height, List.zipWith op l.data r.data⟩ := by
  have hsz : ¬(l.width ≠ r.width ∨ l.height ≠ r.height) := by
    push_neg
    exact ⟨hw, hh⟩
  simp only [binaryOp, checkSizes, if_neg hsz]
  rw [binaryOp_data_eq_zipWith op l.data r.data (l.width * l.height) hl
    (by rw [hr2, hw, hh])]

theorem zipWith_replicate_const {α : Type} (op : α → α → α) (a b : α) :
    ∀ n : ℕ, List.zipWith op (List.replicate n a) (List.replicate n b) =
      List.replicate n (op a b) := by
  intro n
  induction n with
  | zero => rfl
  | succ n ih => simp only [List.replicate_succ, List.zipWith_cons_cons, ih]

theorem binaryOpConst (W H : ℕ) (a b : ℚ) (op : ℚ → ℚ → ℚ) :
    binaryOp (⟨W, H, List.replicate (W * H) a⟩ : ImageGrey)
        ⟨W, H, List.replicate (W * H) b⟩ op =
      Except.ok ⟨W, H, List.replicate (W * H) (op a b)⟩ := by
  rw [binaryOp_ok_eq (⟨W, H, List.replicate (W * H) a⟩ : ImageGrey)
    ⟨W, H, List.replicate (W * H) b⟩ op rfl rfl (by simp) (by simp)]
  rw [zipWith_replicate_const]

theorem scalarOpConst {α : Type} (W H n : ℕ) (a : α) (v : ℚ) (op : α → ℚ → α) :
    scalarOp (⟨W, H, List.replicate n a⟩ : BaseImage α) v op =
      ⟨W, H, List.replicate n (op a v)⟩ := by
  rw [scalarOp]
  refine congrArg (BaseImage.mk W H) ?_
  rw [List.map_replicate]

theorem foldl_min_replicate (c : ℚ) :
    ∀ (n : ℕ) (a : ℚ), (List.replicate n c).foldl min a = if n = 0 then a else min a c := by
  intro n
  induction n with
  | zero => intro a; rfl
  | succ n ih =>
    intro a
    rw [List.replicate_succ, List.foldl_cons, ih (min a c)]
    by_cases h : n = 0
    · rw [if_pos h, if_neg (Nat.succ_ne_zero n)]
    · rw [if_neg h, if_neg (Nat.succ_ne_zero n), min_assoc, min_self]

/-- `normalise` of a flat image returns normally: every output element is
`(c - c) / (max - min) = 0` (the division by zero at `max = min` produces
IEEE NaN at runtime, `0` in the exact model — no error in either case). -/
theorem normalise_flat (W H : ℕ) (hW : 1 ≤ W) (hH : 1 ≤ H) (c : ℚ)
    (hc : c ≤ floatMax) :
    normalise ⟨W, H, List.replicate (W * H) c⟩ = ⟨W, H, List.replicate (W * H) 0⟩ := by
  have hn := Nat.mul_pos hW hH
  rw [normalise]
  refine congrArg (BaseImage.mk W H) ?_
  show (List.replicate (W * H) c).map (fun p =>
    (p - (List.replicate (W * H) c).foldl min floatMax) /
      ((List.replicate (W * H) c).foldl max floatMinPos -
        (List.replicate (W * H) c).foldl min floatMax)) = _
  rw [List.map_replicate, foldl_min_replicate c (W * H) floatMax,
    if_neg (by omega : ¬W * H = 0), min_eq_right hc, sub_self, zero_div]

set_option maxRecDepth 2000 in
unseal Rat.add Rat.mul Rat.inv Rat.sub in
/-- C7 counterexample: normalising a concrete flat image returns an ordinary
buffer (all zeros in the exact model; NaN under IEEE floats), and building
`GuidedFilterValues` from a constant guide with `eps = 0` — a covariance
matrix that is singular after regularisation, `covDet = 0` — returns
`Except.ok` with every inverse entry `0/0`; neither operation surfaces any
`DegenerateInput`-style error (no such error exists in the code). -/
theorem C7_no_degenerate_input_error :
    normalise ⟨2, 1, [5, 5]⟩ = ⟨2, 1, [0, 0]⟩ ∧
    mkGuidedFilterValues ⟨1, 1, [⟨0, 0, 0⟩]⟩ 0 0 =
      Except.ok ⟨1, ⟨1, 1, [0]⟩, ⟨1, 1, [0]⟩, ⟨1, 1, [0]⟩, ⟨1, 1, [0]⟩, ⟨1, 1, [0]⟩,
        ⟨1, 1, [0]⟩, ⟨1, 1, [0]⟩, ⟨1, 1, [0]⟩, ⟨1, 1, [0]⟩, ⟨1, 1, [0]⟩, ⟨1, 1, [0]⟩,
        ⟨1, 1, [0]⟩, ⟨1, 1, [0]⟩, ⟨1, 1, [0]⟩, ⟨1, 1, [0]⟩, ⟨1, 1, [0]⟩, ⟨1, 1, [0]⟩,
        ⟨1, 1, [0]⟩⟩ := by
  refine ⟨by decide, by rfl⟩

/-- C7 (amended): for every flat/constant grey image (within float range)
`normalise` returns the all-zero buffer rather than failing, and for every
constant RGB guide with `eps = 0` — whose covariance matrix stays singular
after regularisation — `mkGuidedFilterValues` returns `Except.ok`, its
cofactors and determinant all zero and every inverse entry the unguarded
`0/0`; no `DegenerateInput` error is raised anywhere (none exists in the
code; IEEE arithmetic would silently produce NaN/Inf instead). -/
theorem C7_degenerate_inputs_return_normally (W H : ℕ) (hW : 1 ≤ W) (hH : 1 ≤ H)
    (c : ℚ) (hc : c ≤ floatMax) (p : Pixel) (r : ℕ) :
    normalise ⟨W, H, List.replicate (W * H) c⟩ = ⟨W, H, List.replicate (W * H) 0⟩ ∧
    mkGuidedFilterValues ⟨W, H, List.replicate (W * H) p⟩ r 0 =
      Except.ok ⟨r * 2 + 1,
        ⟨W, H, List.replicate (W * H) p.r⟩, ⟨W, H, List.replicate (W * H) p.g⟩,
        ⟨W, H, List.replicate (W * H) p.b⟩,
        ⟨W, H, List.replicate (W * H) p.r⟩, ⟨W, H, List.replicate (W * H) p.g⟩,
        ⟨W, H, List.replicate (W * H) p.b⟩,
        ⟨W, H, List.replicate (W * H) 0⟩, ⟨W, H, List.replicate (W * H) 0⟩,
        ⟨W, H, List.replicate (W * H) 0⟩, ⟨W, H, List.replicate (W * H) 0⟩,
        ⟨W, H, List.replicate (W * H) 0⟩, ⟨W, H, List.replicate (W * H) 0⟩,
        ⟨W, H, List.replicate (W * H) 0⟩, ⟨W, H, List.replicate (W * H) 0⟩,
        ⟨W, H, List.replicate (W * H) 0⟩, ⟨W, H, List.replicate (W * H) 0⟩,
        ⟨W, H, List.replicate (W * H) 0⟩, ⟨W, H, List.replicate (W * H) 0⟩⟩ := by
  refine ⟨normalise_flat W H hW hH c hc, ?_⟩
  have hbox : ∀ v : ℚ, boxFilter ⟨W, H, List.replicate (W * H) v⟩ (r * 2 + 1) =
      ⟨W, H, List.replicate (W * H) v⟩ := fun v =>
    boxFilter_const_eq W H v (r * 2 + 1) (by omega)
  simp only [mkGuidedFilterValues, splitChannels_const W H hW hH p, imgMul, imgSub,
    imgAdd, imgDiv, imgAddScalar, binaryOpConst, scalarOpConst, hbox,
    bind, Except.bind, pure, Except.pure, sub_self, add_zero, mul_zero, zero_mul,
    zero_sub, neg_zero, zero_add, zero_div]

/-- Witness for C7 (amended): instantiated at the 2 by 1 flat grey image of
value 5 and the 2 by 1 constant RGB guide (1,2,3) with radius 0 and eps 0. -/
theorem C7_degenerate_inputs_return_normally_witness :
    ((1 : ℕ) ≤ 2 ∧ (1 : ℕ) ≤ 1 ∧ (5 : ℚ) ≤ floatMax) ∧
    (normalise ⟨2, 1, List.replicate (2 * 1) (5 : ℚ)⟩ =
        ⟨2, 1, List.replicate (2 * 1) (0 : ℚ)⟩ ∧
      mkGuidedFilterValues ⟨2, 1, List.replicate (2 * 1) (⟨1, 2, 3⟩ : Pixel)⟩ 0 0 =
        Except.ok ⟨1,
          ⟨2, 1, List.replicate (2 * 1) (1 : ℚ)⟩, ⟨2, 1, List.replicate (2 * 1) (2 : ℚ)⟩,
          ⟨2, 1, List.replicate (2 * 1) (3 : ℚ)⟩,
          ⟨2, 1, List.replicate (2 * 1) (1 : ℚ)⟩, ⟨2, 1, List.replicate (2 * 1) (2 : ℚ)⟩,
          ⟨2, 1, List.replicate (2 * 1) (3 : ℚ)⟩,
          ⟨2, 1, List.replicate (2 * 1) (0 : ℚ)⟩, ⟨2, 1, List.replicate (2 * 1) (0 : ℚ)⟩,
          ⟨2, 1, List.replicate (2 * 1) (0 : ℚ)⟩, ⟨2, 1, List.replicate (2 * 1) (0 : ℚ)⟩,
          ⟨2, 1, List.replicate (2 * 1) (0 : ℚ)⟩, ⟨2, 1, List.replicate (2 * 1) (0 : ℚ)⟩,
          ⟨2, 1, List.replicate (2 * 1) (0 : ℚ)⟩, ⟨2, 1, List.replicate (2 * 1) (0 : ℚ)⟩,
          ⟨2, 1, List.replicate (2 * 1) (0 : ℚ)⟩, ⟨2, 1, List.replicate (2 * 1) (0 : ℚ)⟩,
          ⟨2, 1, List.replicate (2 * 1) (0 : ℚ)⟩, ⟨2, 1, List.replicate (2 * 1) (0 : ℚ)⟩⟩) :=
  ⟨⟨by decide, by decide, by norm_num [floatMax]⟩,
    C7_degenerate_inputs_return_normally 2 1 (by decide) (by decide) 5
      (by norm_num [floatMax]) ⟨1, 2, 3⟩ 0⟩

end HazeRemoval
